import Mathlib
/-!
Verification of the OpenSquad `PluginManager` (`plugins/plugin_manager.py`).

The development shallowly embeds the manager's data model and operations:

* Python dicts that the manager treats as association containers become
  association lists over `String` keys (`alookup`, `dictSet`, `removeKey`),
  preserving insertion order exactly as CPython dicts do.
* Stateful methods become explicit state-passing functions over `PMState`
  (the manager's `_plugins`, `_event_subscriptions`, `_hook_chain_cache`),
  `World` (the external event bus and tool registry, modelled at the
  interface boundary given in the spec) and `Disk` (the plugins directory).
* Python exceptions become `Except Unit` results; `try/except` blocks in the
  source become explicit `match`es on those results.
* A hook context is abstracted by `PyVal`: the dispatcher only ever inspects
  `context.get("__stop__")` and its truthiness, so a dict is modelled as an
  association list from keys to the truthiness of the stored value, and a
  non-dict return value (for example `None`) is `PyVal.nonDict`, whose `get`
  raises.

All functions are executable and all predicates decidable so that every
theorem with hypotheses can be instantiated at concrete inputs.
-/

namespace OpenSquad

/-! ## Association-list primitives (CPython dict semantics) -/

/-- Lookup in an association list (first binding wins, like a Python dict
with unique keys). -/
def alookup {α : Type} [DecidableEq α] {β : Type} (k : α) :
    List (α × β) → Option β
  | [] => none
  | (k', v) :: rest => if k' = k then some v else alookup k rest

/-- `d[k] = v` on a Python dict: replace the binding in place if the key is
present (keeping its position, as CPython does), otherwise append it. -/
def dictSet {α : Type} [DecidableEq α] {β : Type} (k : α) (v : β) :
    List (α × β) → List (α × β)
  | [] => [(k, v)]
  | (k', v') :: rest =>
      if k' = k then (k, v) :: rest else (k', v') :: dictSet k v rest

/-- `del d[k]` on a Python dict (total: removing an absent key is a no-op,
which only ever happens where the source guards the deletion; keys are
unique by construction, so removing every binding of `k` is the same as
removing the one binding). -/
def removeKey {α : Type} [DecidableEq α] {β : Type} (k : α) :
    List (α × β) → List (α × β)
  | [] => []
  | (k', v) :: rest =>
      if k' = k then removeKey k rest else (k', v) :: removeKey k rest

/-- `k in d` on a Python dict. -/
def hasKey {α : Type} [DecidableEq α] {β : Type} (k : α)
    (l : List (α × β)) : Bool :=
  (alookup k l).isSome

/-! ## The hook dispatcher (`run_hook`) -/

/-- Abstraction of a Python value flowing through a hook chain.  The
dispatcher only reads `context.get("__stop__")` and tests its truthiness, so
a dict is represented by the truthiness of each stored value, and any
non-dict value (such as `None`, which has no `get` method) is `nonDict`. -/
inductive PyVal where
  | dict (entries : List (String × Bool))
  | nonDict
deriving DecidableEq

/-- Model of `value.get(key)`: on a dict returns the stored binding (or
`none`, i.e. Python `None`, when absent); on a non-dict value it raises
(`AttributeError`). -/
def pyGet (v : PyVal) (key : String) : Except Unit (Option Bool) :=
  match v with
  | .dict es => .ok (alookup key es)
  | .nonDict => .error ()

/-- Truthiness of the result of `dict.get`: `None` is falsy, otherwise the
truthiness of the stored value. -/
def pyTruthy (v : Option Bool) : Bool :=
  v.getD false

/-- A hook handler entry as stored in the chain: `(priority, plugin_name,
bound_method)`.  A handler either raises (`Except.error`) or returns a new
context value. -/
abbrev RunEntry : Type :=
  Int × String × (PyVal → Except Unit PyVal)

/-- The body of `PluginManager.run_hook`'s loop (lines 437-448): invoke each
handler in order; a raising handler is logged and the context kept as it was
before the call; afterwards `context.get("__stop__")` is evaluated *outside*
the `try`, so it raises out of the whole loop when the current context is not
dict-like; a truthy stop flag breaks the loop.  Returns the final context
and whether the chain was stopped early. -/
def runHookLoop : List RunEntry → PyVal → Except Unit (PyVal × Bool)
  | [], context => .ok (context, false)
  | (_, _, method) :: rest, context =>
    let context' :=
      match method context with
      | .ok c => c
      | .error _ => context
    match pyGet context' "__stop__" with
    | .error e => .error e
    | .ok v =>
      if pyTruthy v then .ok (context', true) else runHookLoop rest context'

/-- Model of `PluginManager.run_hook` applied to the handler chain looked up
for the hook name (an absent hook name yields the empty chain, returning the
context unchanged). -/
def run_hook (handlers : List RunEntry) (context : PyVal) :
    Except Unit PyVal :=
  (runHookLoop handlers context).map Prod.fst

/-! ## Hook chain construction (`_build_hook_chain`) -/

/-- One entry of a bound method's `__hook_meta__` list: the decorator
records `hook_name` and `priority`, both read with `dict.get` (so either may
be absent; `priority` defaults to 0). -/
structure HookMetaEntry where
  hookName : Option String
  priority : Option Int
deriving DecidableEq

/-- A bound hook method as data: its optional `__hook_meta__` attribute and
an identifier standing for the bound method object itself. -/
structure HookMethod where
  hookMeta : Option (List HookMetaEntry)
  fnId : Nat
deriving DecidableEq

/-- Priority resolution of `_build_hook_chain` (lines 403-408): default 0;
if the method has `__hook_meta__`, the first entry whose `hook_name` equals
the hook being built supplies `priority` (default 0). -/
def hookPriority (m : HookMethod) (hookName : String) : Int :=
  match m.hookMeta with
  | none => 0
  | some entries =>
    match entries.find? (fun en => decide (en.hookName = some hookName)) with
    | none => 0
    | some en => en.priority.getD 0

/-- A chain element `(priority, plugin_name, bound_method)`. -/
structure ChainEntry where
  priority : Int
  pluginName : String
  method : HookMethod
deriving DecidableEq

/-- A plugin's `hook_map`: hook name → list of bound methods. -/
abbrev HookMap := List (String × List HookMethod)

/-- `chain[hook_name].append(entry)`, creating the empty bucket first when
the hook name is new (lines 400-401 and 409). -/
def chainAdd (hookName : String) (e : ChainEntry)
    (chain : List (String × List ChainEntry)) :
    List (String × List ChainEntry) :=
  match alookup hookName chain with
  | none => chain ++ [(hookName, [e])]
  | some bucket => dictSet hookName (bucket ++ [e]) chain

/-- Code-point lexicographic comparison of character lists, the order
CPython uses to compare `str` values (and the order `sorted` uses on
plugin names).  Defined from scratch so that it evaluates inside the
kernel. -/
def strLeB : List Char → List Char → Bool
  | [], _ => true
  | _ :: _, [] => false
  | a :: as, b :: bs =>
      if a < b then true else if b < a then false else strLeB as bs

/-- Lexicographic `≤` on strings (CPython string comparison). -/
def strLE (a b : String) : Prop :=
  strLeB a.data b.data = true

instance : DecidableRel strLE := fun a b => by
  unfold strLE; infer_instance

/-- The sort key of line 412, `key=lambda t: (-t[0], t[1])`, as a relation:
descending priority, ties broken by ascending plugin name. -/
def ChainLE (a b : ChainEntry) : Prop :=
  b.priority < a.priority ∨
    (a.priority = b.priority ∧ strLE a.pluginName b.pluginName)

instance : DecidableRel ChainLE := fun a b => by
  unfold ChainLE; infer_instance

/-- Ordering of `sorted(self._plugins.keys())`: ascending key. -/
def keyLE {β : Type} (a b : String × β) : Prop :=
  strLE a.1 b.1

instance {β : Type} : DecidableRel (@keyLE β) := fun a b => by
  unfold keyLE; infer_instance

/-- Model of `PluginManager._build_hook_chain` (lines 386-414): iterate the
loaded plugins in ascending name order (`sorted(self._plugins.keys())`,
modelled by a stable sort of the association list, which agrees because the
names of loaded plugins are unique), append one `(priority, plugin_name,
method)` entry per declared hook method, then stably sort each bucket by
`(-priority, plugin_name)` (Python `list.sort` is stable; so is
`insertionSort`). -/
def build_hook_chain (plugins : List (String × HookMap)) :
    List (String × List ChainEntry) :=
  let sortedPlugins := List.insertionSort keyLE plugins
  let chain := sortedPlugins.foldl
    (fun ch np =>
      np.2.foldl
        (fun ch2 hm =>
          hm.2.foldl
            (fun ch3 m =>
              chainAdd hm.1
                { priority := hookPriority m hm.1, pluginName := np.1,
                  method := m }
                ch3)
            ch2)
        ch)
    []
  chain.map (fun b => (b.1, List.insertionSort ChainLE b.2))

/-- Two concrete plugins for instantiating the hook-chain theorems: both
declare the hook `on_message_received` at priority 5. -/
def hmAlpha : HookMap :=
  [("on_message_received",
    [{ hookMeta := some [{ hookName := some "on_message_received",
                           priority := some 5 }],
       fnId := 1 }])]

def hmBeta : HookMap :=
  [("on_message_received",
    [{ hookMeta := some [{ hookName := some "on_message_received",
                           priority := some 5 }],
       fnId := 2 }])]

/-! ## Data model: manifests, plugin definitions, manager state, and the
external collaborators (event bus, tool registry, plugins directory) -/

/-- One entry of a manifest's `tools` list (the schema of §6:
`{name, module, level, auto_register, requires_agent_id}`). -/
structure ManifestTool where
  name : String
  module : String
  level : String
  autoRegister : Bool
  requiresAgentId : Bool
deriving DecidableEq

/-- A parsed `plugin.json` (the spec's ManifestRecord).  Fields that the
manager reads via `dict.get` with a default are `Option`s.  `config_schema`
is omitted: the manager only forwards it and no claim observes it. -/
structure Manifest where
  name : Option String
  displayName : Option String
  version : Option String
  ptype : Option String
  description : Option String
  tools : List ManifestTool
  enabled : Option Bool
deriving DecidableEq

/-- A dynamically queried proxy-tool descriptor, one element of
`plugin.get_tool_modules()`, with the source's `dict.get` defaults already
applied (`name` defaults to `""`, `module` to `None` — represented by
`hasModule = false` — `level` to `"extended"`, the flags to `False`). -/
structure ProxyDesc where
  name : String
  hasModule : Bool
  level : String
  autoRegister : Bool
  requiresAgentId : Bool
deriving DecidableEq

/-- A namespace bundle built by the loader from the plugin's `@tool`
methods (lines 218-240): the namespace, and the `level` / `auto_register`
values resolved from the first method's meta (defaults `"extended"` /
`False`).  `namespace` is a Lean keyword, hence the field name `ns`. -/
structure ToolWrapperEntry where
  ns : String
  level : String
  autoRegister : Bool
deriving DecidableEq

instance {e a : Type} [DecidableEq e] [DecidableEq a] :
    DecidableEq (Except e a) := fun x y =>
  match x, y with
  | .error e₁, .error e₂ =>
    if h : e₁ = e₂ then isTrue (by rw [h])
    else isFalse (fun hc => h (Except.error.inj hc))
  | .error _, .ok _ => isFalse (fun hc => Except.noConfusion hc)
  | .ok _, .error _ => isFalse (fun hc => Except.noConfusion hc)
  | .ok a₁, .ok a₂ =>
    if h : a₁ = a₂ then isTrue (by rw [h])
    else isFalse (fun hc => h (Except.ok.inj hc))

/-- A plugin implementation as deterministic data: the metadata extracted
from its decorators plus the behaviour of its callbacks.  `onLoadRaises` /
`onUnloadRaises` say whether the respective callback raises;
`getToolModules` is `none` when the plugin has no such attribute,
`some (Except.error ())` when calling it raises, and `some (Except.ok l)`
when it returns the descriptor list `l` (callbacks are modelled as pure, so
a query returns the same answer at load, bind and unload time). -/
structure PluginDef where
  declName : String
  displayName : String
  version : String
  ptype : String
  description : String
  declaredTools : List ManifestTool
  eventMethods : List (String × Nat)
  toolWrappers : List ToolWrapperEntry
  getToolModules : Option (Except Unit (List ProxyDesc))
  hookMap : HookMap
  onLoadRaises : Bool
  onUnloadRaises : Bool
deriving DecidableEq

/-- A `_plugins` record (the spec's PluginRecord): the stored plugin
instance (as its `PluginDef`), the generated metadata and the owning
directory.  The `_runtime` annotation added to the metadata (lines 296-299)
is omitted: no claim observes it. -/
structure PluginRecord where
  pdef : PluginDef
  metadata : Manifest
  dirName : String
deriving DecidableEq

/-- The manager's mutable state: `_plugins`, `_event_subscriptions` and
`_hook_chain_cache` (the claims only observe whether the cache was
invalidated; its content, when present, is what `build_hook_chain`
produces).  `_last_reload_ts` is omitted: `check_reload_needed` is advisory
and no claim depends on it. -/
structure PMState where
  plugins : List (String × PluginRecord)
  eventSubs : List (String × List (String × Nat))
  hookChainCache : Option (List (String × List ChainEntry))
deriving DecidableEq

/-- Modelled from the spec: the external collaborators of §6, which are not
part of this repository's sources under `src/`.  The EventBus
(`opensquad.events.bus`) keeps the multiset of `(event_type, callback)`
subscriptions, `subscribe` appending and `unsubscribe` removing one pair.
The agent ToolRegistry keeps a map namespace → level;
`register(module, namespace, level)` binds the namespace and
`unregister(namespace)` removes it, a no-op when absent (§4.3). -/
structure World where
  bus : List (String × Nat)
  registry : List (String × String)
deriving DecidableEq

/-- Modelled from the spec: `EventBus.unsubscribe(event_type, callback)`
removes that subscription pair from the bus. -/
def busUnsubscribe (et : String) (cb : Nat) (bus : List (String × Nat)) :
    List (String × Nat) :=
  bus.filter (fun s => decide (s ≠ (et, cb)))

/-- One plugin directory on disk: its name, its `plugin.json` when present
and parseable (the manager treats an unparseable manifest like an absent
one wherever it reads with defaults), and the `@register` plugin class
found in its `plugin.py` (`none` when the import fails or no decorated
class exists).  A `Disk` lists the plugin directories in the sorted order
`sorted(os.listdir(...))` produces; every entry has a `plugin.py`. -/
structure DirEntry where
  dirName : String
  manifest : Option Manifest
  pdef : Option PluginDef
deriving DecidableEq

abbrev Disk := List DirEntry

/-! ## Loader (`_load_plugin` / `_load_new_style`) -/

/-- Modelled from the spec: `generate_plugin_json` (the Descriptor
Extractor's `regenerateManifest` of §6) lives in `opensquad.plugin_api`,
which is not under `src/`.  Per §3 and §4.1 step 8 it rebuilds the
ManifestRecord from the extracted decorator metadata — name, display
metadata, version, type, declared tools.  A freshly generated manifest is
enabled (§4.4 treats a missing flag as enabled); the authoritative value is
carried over from the prior file by the loader itself (lines 278-285). -/
def generate_plugin_json (p : PluginDef) : Manifest :=
  { name := some p.declName, displayName := some p.displayName,
    version := some p.version, ptype := some p.ptype,
    description := some p.description, tools := p.declaredTools,
    enabled := some true }

/-- The proxy-tool merge of lines 261-276: names already present in the
generated tools win (the membership set is computed once, so duplicate
proxy names are each appended); descriptors with an empty name are
skipped. -/
def mergeProxyTools (generated : Manifest) (proxy : List ProxyDesc) :
    Manifest :=
  let existingNames := generated.tools.map (fun t => t.name)
  { generated with
    tools := generated.tools ++
      (proxy.filter
          (fun pt => decide (pt.name ≠ "") && decide (pt.name ∉ existingNames))).map
        (fun pt =>
          { name := pt.name, module := "proxy", level := pt.level,
            autoRegister := pt.autoRegister,
            requiresAgentId := pt.requiresAgentId }) }

/-- The enabled carry-over of lines 278-285: when a manifest file already
exists, the regenerated manifest's `enabled` is set to the prior file's
value (default `True` when the prior file lacks the key). -/
def carryEnabled (generated : Manifest) (existing : Option Manifest) :
    Manifest :=
  match existing with
  | some ex => { generated with enabled := some (ex.enabled.getD true) }
  | none => generated

/-- The descriptors `get_tool_modules()` yields when it exists and does not
raise; empty otherwise. -/
def proxyToolsOf (p : PluginDef) : List ProxyDesc :=
  match p.getToolModules with
  | some (Except.ok l) => l
  | _ => []

/-- The generated manifest after the proxy-tool merge (lines 257-276): the
merge happens when the query exists and succeeds; a raise is caught and
debug-logged, leaving the generated manifest unmerged. -/
def mergedManifest (p : PluginDef) : Manifest :=
  match p.getToolModules with
  | some (Except.ok l) => mergeProxyTools (generate_plugin_json p) l
  | _ => generate_plugin_json p

/-- The manifest `_load_new_style` writes (lines 257-292): generate, merge
proxy tools, then carry over the prior `enabled`. -/
def regenManifest (p : PluginDef) (existing : Option Manifest) : Manifest :=
  carryEnabled (mergedManifest p) existing

/-- Outcome of one `_load_plugin` call as seen by its caller: a normal
return (`ok none` means skipped — no decorated class, or disabled), or a
propagated exception. -/
inductive LoadResult where
  | ok (name : Option String)
  | raised
deriving DecidableEq

/-- The body of `_load_new_style` once the enabled gate has passed (lines
172-315): subscribe the `@on_event` methods to the bus and record them for
teardown (246-255), regenerate and write the manifest (257-292), call
`plugin.on_load()` — *not* wrapped in any `try` (302) — and only then
insert the `_plugins` record (304-310).  Config resolution (183-209) is
omitted (no claim observes it); the manifest write is assumed to succeed
and the event-bus import to be available. -/
def loadProceed (w : World) (st : PMState) (e : DirEntry) (p : PluginDef) :
    World × PMState × DirEntry × LoadResult :=
  let name := p.declName
  let w1 :=
    if p.eventMethods.isEmpty then w
    else { w with bus := w.bus ++ p.eventMethods }
  let st1 :=
    if p.eventMethods.isEmpty then st
    else { st with eventSubs := dictSet name p.eventMethods st.eventSubs }
  let finalM := regenManifest p e.manifest
  let e1 := { e with manifest := some finalM }
  if p.onLoadRaises then (w1, st1, e1, .raised)
  else
    (w1,
     { st1 with
        plugins := dictSet name
          { pdef := p, metadata := finalM, dirName := e.dirName }
          st1.plugins },
     e1, .ok (some name))

/-- Model of `_load_plugin` (lines 106-128) composed with `_load_new_style`
(lines 134-315) for one directory: a failed import or a missing `@register`
class returns `None`; an existing manifest with `enabled: false` skips the
plugin before any side effect (lines 160-170). -/
def load_plugin (w : World) (st : PMState) (e : DirEntry) :
    World × PMState × DirEntry × LoadResult :=
  match e.pdef with
  | none => (w, st, e, .ok none)
  | some p =>
    match e.manifest with
    | some m =>
        if m.enabled.getD true then loadProceed w st e p
        else (w, st, e, .ok none)
    | none => loadProceed w st e p

/-- Model of `discover_and_load` (lines 69-104): iterate the plugin
directories in sorted order, loading each; a raised load is caught, logged
and skipped (lines 95-100) — its already-performed side effects persist;
finally the hook-chain cache is invalidated (line 102) and the loaded names
returned. -/
def discover_and_load (w : World) (st : PMState) (disk : Disk) :
    World × PMState × Disk × List String :=
  let folded := disk.foldl
    (fun (acc : World × PMState × Disk × List String) e =>
      let (w, st, ds, ld) := acc
      let (w', st', e', res) := load_plugin w st e
      (w', st', ds ++ [e'],
       match res with
       | .ok (some n) => ld ++ [n]
       | _ => ld))
    (w, st, [], [])
  (folded.1, { folded.2.1 with hookChainCache := none }, folded.2.2.1,
   folded.2.2.2)

/-! ## Teardown (`unload_plugin`) -/

/-- Model of `unload_plugin` (lines 494-548).  Step 1 calls
`plugin.on_unload()` inside `try/except` (514-517): whether it raises
(`onUnloadRaises`) never affects the state.  Step 2 unsubscribes every
recorded EventBus pair and deletes the tracking entry (519-528).  Step 3,
only when a registry was passed, unregisters every wrapper namespace and —
inside a bare `try` — every non-empty proxy-descriptor name (530-542; a
raising `get_tool_modules` is caught there, skipping only the proxy
unregistrations).  Step 4 deletes the record and invalidates the chain
cache (544-546).  Returns `false` only when the plugin was not loaded. -/
def unload_plugin (w : World) (st : PMState) (name : String)
    (useRegistry : Bool) : World × PMState × Bool :=
  match alookup name st.plugins with
  | none => (w, st, false)
  | some r =>
    let (w1, st1) :=
      match alookup name st.eventSubs with
      | none => (w, st)
      | some subs =>
          ({ w with
              bus := subs.foldl
                (fun b (s : String × Nat) => busUnsubscribe s.1 s.2 b)
                w.bus },
           { st with eventSubs := removeKey name st.eventSubs })
    let w2 :=
      if useRegistry then
        let reg1 := r.pdef.toolWrappers.foldl
          (fun reg (tw : ToolWrapperEntry) => removeKey tw.ns reg) w1.registry
        let reg2 :=
          match r.pdef.getToolModules with
          | none => reg1
          | some (Except.error _) => reg1
          | some (Except.ok descs) =>
              descs.foldl
                (fun reg (d : ProxyDesc) =>
                  if d.name ≠ "" then removeKey d.name reg else reg)
                reg1
        { w1 with registry := reg2 }
      else w1
    (w2,
     { st1 with plugins := removeKey name st1.plugins,
                hookChainCache := none },
     true)

/-! ## Tool binder (`register_tools_to_agent`) -/

/-- The wrapper-bundle registration loop of lines 343-356: register each
namespace whose `auto_register` flag is set or whose name is in the
caller-supplied allow-list. -/
def registerWrappers (agentToolNames : List String)
    (tws : List ToolWrapperEntry) (acc : World × Nat) : World × Nat :=
  tws.foldl
    (fun (acc : World × Nat) (tw : ToolWrapperEntry) =>
      if tw.autoRegister || decide (tw.ns ∈ agentToolNames) then
        ({ acc.1 with registry := dictSet tw.ns tw.level acc.1.registry },
         acc.2 + 1)
      else acc)
    acc

/-- The proxy-descriptor registration loop of lines 360-378: same
eligibility rule, but a descriptor whose `module` is `None` is skipped even
when eligible (line 369-370).  The `set_agent_id` push into the backing
module (373-374) is a side effect on the module and is not modelled. -/
def registerProxies (agentToolNames : List String)
    (descs : List ProxyDesc) (acc : World × Nat) : World × Nat :=
  descs.foldl
    (fun (acc : World × Nat) (d : ProxyDesc) =>
      if (d.autoRegister || decide (d.name ∈ agentToolNames)) && d.hasModule then
        ({ acc.1 with registry := dictSet d.name d.level acc.1.registry },
         acc.2 + 1)
      else acc)
    acc

/-- The per-plugin iteration of `register_tools_to_agent` (lines 339-378).
Note line 360 calls `plugin.get_tool_modules()` with *no* surrounding
`try`: a raising query propagates out of the whole method. -/
def registerLoop (agentToolNames : List String) :
    List (String × PluginRecord) → World → Nat → Except Unit (World × Nat)
  | [], w, count => .ok (w, count)
  | (_, r) :: rest, w, count =>
    let acc1 := registerWrappers agentToolNames r.pdef.toolWrappers (w, count)
    match r.pdef.getToolModules with
    | none => registerLoop agentToolNames rest acc1.1 acc1.2
    | some (Except.error e) => .error e
    | some (Except.ok descs) =>
        let acc2 := registerProxies agentToolNames descs acc1
        registerLoop agentToolNames rest acc2.1 acc2.2

/-- Model of `register_tools_to_agent` (lines 321-380): `agent_tool_names`
defaults to the empty list; returns the number of registrations made. -/
def register_tools_to_agent (w : World) (st : PMState)
    (agentToolNames : List String) : Except Unit (World × Nat) :=
  registerLoop agentToolNames st.plugins w 0

/-! ## Hot-reload reconciler (`reload_plugins`) -/

/-- The disk-map key of lines 578-589: the manifest's `name` (default: the
directory name; also the default when the manifest is absent or
unreadable). -/
def keyOf (e : DirEntry) : String :=
  match e.manifest with
  | some m => m.name.getD e.dirName
  | none => e.dirName

/-- The disk enabled flag of lines 579-589: the manifest's `enabled`
(default `True` when absent or unreadable). -/
def enabledOf (e : DirEntry) : Bool :=
  match e.manifest with
  | some m => m.enabled.getD true
  | none => true

/-- `disk_plugins` (lines 570-595): a dict keyed by plugin name, filled over
the sorted directory listing — a later directory whose manifest declares
the same name overwrites an earlier one. -/
def diskPlugins (disk : Disk) : List (String × DirEntry) :=
  disk.foldl (fun acc e => dictSet (keyOf e) e acc) []

structure UnloadAcc where
  w : World
  st : PMState
  unloaded : List String
deriving DecidableEq

/-- The unload pass (lines 597-602): iterate a snapshot of the loaded
names; every name whose disk entry is now disabled is fully unloaded and
appended to `unloaded`. -/
def unloadPass (dmap : List (String × DirEntry)) (useRegistry : Bool) :
    List String → World → PMState → UnloadAcc
  | [], w, st => { w := w, st := st, unloaded := [] }
  | name :: rest, w, st =>
    match alookup name dmap with
    | some e =>
      if enabledOf e then unloadPass dmap useRegistry rest w st
      else
        let u := unload_plugin w st name useRegistry
        let t := unloadPass dmap useRegistry rest u.1 u.2.1
        { t with unloaded := name :: t.unloaded }
    | none => unloadPass dmap useRegistry rest w st

/-- The post-load registration block of the load pass (lines 609-629):
wrapper bundles then module-backed dynamic descriptors, under the same
eligibility rule as `register_tools_to_agent`.  The dynamic query (line
621) is guarded only by the outer per-plugin `try`, so the `Bool` returned
here says whether it raised — in which case the caller skips the append to
`loaded` (the already-made wrapper registrations persist). -/
def reloadRegister (w : World) (r : PluginRecord)
    (agentToolNames : List String) : World × Bool :=
  let reg1 := r.pdef.toolWrappers.foldl
    (fun reg (tw : ToolWrapperEntry) =>
      if tw.autoRegister || decide (tw.ns ∈ agentToolNames) then
        dictSet tw.ns tw.level reg
      else reg)
    w.registry
  match r.pdef.getToolModules with
  | none => ({ w with registry := reg1 }, false)
  | some (Except.error _) => ({ w with registry := reg1 }, true)
  | some (Except.ok descs) =>
      let reg2 := descs.foldl
        (fun reg (d : ProxyDesc) =>
          if (d.autoRegister || decide (d.name ∈ agentToolNames)) &&
              d.hasModule then
            dictSet d.name d.level reg
          else reg)
        reg1
      ({ w with registry := reg2 }, false)

/-- Writing a directory's `plugin.json`: replace the manifest of the entry
with that directory name. -/
def setManifest (dn : String) (m : Option Manifest) (d : DirEntry) :
    DirEntry :=
  if d.dirName = dn then { d with manifest := m } else d

def updateDirManifest (disk : Disk) (dn : String) (m : Option Manifest) :
    Disk :=
  disk.map (setManifest dn m)

structure LoadAcc where
  w : World
  st : PMState
  disk : Disk
  loaded : List String
deriving DecidableEq

/-- The load pass (lines 604-635): for each disk-map entry that is enabled
and not loaded in memory, load its directory (the loader re-reads the
current `plugin.json` from disk, hence the `find?` on the threaded disk);
on a successful load, register its tools when a registry was passed and
append the loaded name.  Any raise inside the per-plugin block — from the
load itself or from the unguarded dynamic tool query during registration —
is caught and logged (lines 633-635), leaving already-performed side
effects in place and the name unreported. -/
def loadPass (useRegistry : Bool) (agentToolNames : List String) :
    List (String × DirEntry) → World → PMState → Disk → LoadAcc
  | [], w, st, disk => { w := w, st := st, disk := disk, loaded := [] }
  | (name, e) :: rest, w, st, disk =>
    if enabledOf e && !(hasKey name st.plugins) then
      match disk.find? (fun d => decide (d.dirName = e.dirName)) with
      | none => loadPass useRegistry agentToolNames rest w st disk
      | some cur =>
        let L := load_plugin w st cur
        let disk' := updateDirManifest disk cur.dirName L.2.2.1.manifest
        match L.2.2.2 with
        | .raised => loadPass useRegistry agentToolNames rest L.1 L.2.1 disk'
        | .ok none => loadPass useRegistry agentToolNames rest L.1 L.2.1 disk'
        | .ok (some ln) =>
          let reg : World × Bool :=
            if useRegistry then
              match alookup ln L.2.1.plugins with
              | some r => reloadRegister L.1 r agentToolNames
              | none => (L.1, false)
            else (L.1, false)
          let t := loadPass useRegistry agentToolNames rest reg.1 L.2.1 disk'
          if reg.2 then t else { t with loaded := ln :: t.loaded }
    else loadPass useRegistry agentToolNames rest w st disk

structure ReloadResult where
  w : World
  st : PMState
  disk : Disk
  loaded : List String
  unloaded : List String
deriving DecidableEq

/-- Model of `reload_plugins` (lines 550-642): scan the disk into the
name-keyed map, unload newly-disabled plugins, load newly-enabled ones, and
invalidate the hook-chain cache once iff anything happened. -/
def reload_plugins (w : World) (st : PMState) (disk : Disk)
    (useRegistry : Bool) (agentToolNames : List String) : ReloadResult :=
  let dmap := diskPlugins disk
  let u := unloadPass dmap useRegistry (st.plugins.map Prod.fst) w st
  let l := loadPass useRegistry agentToolNames dmap u.w u.st disk
  let st' :=
    if l.loaded.isEmpty && u.unloaded.isEmpty then l.st
    else { l.st with hookChainCache := none }
  { w := l.w, st := st', disk := l.disk, loaded := l.loaded,
    unloaded := u.unloaded }

/-- A directory whose load attempt is inert for reconciliation purposes:
no plugin class, or a deterministically failing `on_load` whose side
effects (manifest write, event subscriptions) have already reached their
fixpoint. -/
def InertEntry (st : PMState) (e : DirEntry) : Prop :=
  match e.pdef with
  | none => True
  | some p =>
      p.onLoadRaises = true ∧
      e.manifest = some (regenManifest p e.manifest) ∧
      (p.eventMethods = [] ∨
        alookup p.declName st.eventSubs = some p.eventMethods)

/-- Disk/memory agreement for one disk-map entry: a disabled entry is not
loaded, and an enabled entry is either loaded or inert. -/
def StableEntry (st : PMState) (k : String) (e : DirEntry) : Prop :=
  (enabledOf e = false → hasKey k st.plugins = false) ∧
  (enabledOf e = true → hasKey k st.plugins = true ∨ InertEntry st e)

/-- A directory's on-disk identity matches its plugin's declared name: the
manifest `name` when a manifest is present, the directory name otherwise.
(The amendment of C7: without this, a freshly rewritten manifest can change
an entry's disk-map key between two reconcile calls and un-shadow another
directory.) -/
def entryNameConsistent (e : DirEntry) : Bool :=
  match e.pdef with
  | none => true
  | some p =>
    match e.manifest with
    | some m => m.name == some p.declName
    | none => e.dirName == p.declName

def NameConsistent (disk : Disk) : Prop :=
  ∀ e ∈ disk, entryNameConsistent e = true

/-- The two-directory counterexample disk: directory `a`'s manifest
declares name `nn` (matching its plugin), directory `b`'s manifest *also*
declares `nn` while its plugin's real name is `bb`.  `b` shadows `a` in the
disk map; loading `b` rewrites its manifest to `bb`, un-shadowing `a` for
the next call. -/
def pdNN : PluginDef :=
  { declName := "nn", displayName := "NN", version := "1.0.0",
    ptype := "feature", description := "", declaredTools := [],
    eventMethods := [], toolWrappers := [], getToolModules := none,
    hookMap := [], onLoadRaises := false, onUnloadRaises := false }

def pdBB : PluginDef :=
  { pdNN with declName := "bb", displayName := "BB" }

def diskShadow : Disk :=
  [{ dirName := "a",
     manifest := some
       { name := some "nn", displayName := none, version := none,
         ptype := none, description := none, tools := [],
         enabled := some true },
     pdef := some pdNN },
   { dirName := "b",
     manifest := some
       { name := some "nn", displayName := none, version := none,
         ptype := none, description := none, tools := [],
         enabled := some true },
     pdef := some pdBB }]

/-- A small consistent disk for the idempotence witness: one directory, no
manifest yet, plugin name matching the directory name. -/
def diskFresh : Disk :=
  [{ dirName := "nn", manifest := none, pdef := some pdNN }]

/-- Empty world and empty manager state, for instantiating theorems. -/
def w0 : World := { bus := [], registry := [] }

def st0 : PMState := { plugins := [], eventSubs := [], hookChainCache := none }

/-- A concrete plugin whose `on_load` callback raises and which subscribes
one event handler. -/
def pdFail : PluginDef :=
  { declName := "p", displayName := "P", version := "1.0.0",
    ptype := "feature", description := "", declaredTools := [],
    eventMethods := [("evt", 7)], toolWrappers := [], getToolModules := none,
    hookMap := [], onLoadRaises := true, onUnloadRaises := false }

/-- A directory containing `pdFail` and no manifest. -/
def eFail : DirEntry := { dirName := "p", manifest := none, pdef := some pdFail }

/-- A concrete loaded record whose `on_unload` raises and whose
`get_tool_modules` raises when called, with one wrapper namespace and one
proxy namespace previously registered. -/
def pdQ : PluginDef :=
  { declName := "q", displayName := "Q", version := "1.0.0",
    ptype := "feature", description := "", declaredTools := [],
    eventMethods := [("e", 1)],
    toolWrappers := [{ ns := "t1", level := "core", autoRegister := true }],
    getToolModules := some (Except.ok
      [{ name := "pt", hasModule := true, level := "extended",
         autoRegister := true, requiresAgentId := false }]),
    hookMap := [], onLoadRaises := false, onUnloadRaises := true }

def recQ : PluginRecord :=
  { pdef := pdQ, metadata := generate_plugin_json pdQ, dirName := "q" }

/-- A manager state with `pdQ` loaded (its subscriptions recorded) and a
world in which its subscriptions and tool namespaces are live. -/
def stQ : PMState :=
  { plugins := [("q", recQ)], eventSubs := [("q", [("e", 1)])],
    hookChainCache := some [] }

def wQ : World :=
  { bus := [("e", 1)],
    registry := [("t1", "core"), ("pt", "extended")] }

/-- A variant of `recQ` whose `get_tool_modules` itself raises at unload
time (the bare `except` of lines 541-542 catches it). -/
def recQraise : PluginRecord :=
  { recQ with pdef := { pdQ with getToolModules := some (Except.error ()) } }

def stQraise : PMState :=
  { stQ with plugins := [("q", recQraise)] }

/-- The eligibility rule of the claim, per tool namespace: the namespace
comes from a declared wrapper bundle or from the plugin's dynamic
`get_tool_modules` query (with its backing module present — the amendment),
and its auto-register flag is set or its name appears in the caller's
allow-list. -/
def eligibleNamespace (allow : List String)
    (plugins : List (String × PluginRecord)) (ns : String) : Prop :=
  ∃ pr ∈ plugins,
    (∃ tw ∈ pr.2.pdef.toolWrappers,
       tw.ns = ns ∧ (tw.autoRegister = true ∨ ns ∈ allow)) ∨
    (∃ d ∈ proxyToolsOf pr.2.pdef,
       d.name = ns ∧ d.hasModule = true ∧
         (d.autoRegister = true ∨ ns ∈ allow))

instance (allow : List String) (plugins : List (String × PluginRecord))
    (ns : String) : Decidable (eligibleNamespace allow plugins ns) := by
  unfold eligibleNamespace; infer_instance

/-- A plugin whose only tool is a dynamic descriptor with `auto_register`
set but `module = None`. -/
def pdNoModule : PluginDef :=
  { declName := "nm", displayName := "NM", version := "1.0.0",
    ptype := "feature", description := "", declaredTools := [],
    eventMethods := [], toolWrappers := [],
    getToolModules := some (Except.ok
      [{ name := "t", hasModule := false, level := "extended",
         autoRegister := true, requiresAgentId := false }]),
    hookMap := [], onLoadRaises := false, onUnloadRaises := false }

def stNoModule : PMState :=
  { plugins := [("nm",
      { pdef := pdNoModule, metadata := generate_plugin_json pdNoModule,
        dirName := "nm" })],
    eventSubs := [], hookChainCache := none }

/-- A plugin whose only tool is a dynamic descriptor that is module-backed
and auto-registered but whose `name` defaults to the empty string. -/
def pdEmptyName : PluginDef :=
  { declName := "en", displayName := "EN", version := "1.0.0",
    ptype := "feature", description := "", declaredTools := [],
    eventMethods := [], toolWrappers := [],
    getToolModules := some (Except.ok
      [{ name := "", hasModule := true, level := "extended",
         autoRegister := true, requiresAgentId := false }]),
    hookMap := [], onLoadRaises := false, onUnloadRaises := false }

def stEmptyName : PMState :=
  { plugins := [("en",
      { pdef := pdEmptyName, metadata := generate_plugin_json pdEmptyName,
        dirName := "en" })],
    eventSubs := [], hookChainCache := none }

/-- The world after `register_tools_to_agent` has bound `pdEmptyName`'s
descriptor: one registration under the empty namespace. -/
def wEmptyName : World :=
  { bus := [], registry := [("", "extended")] }

/-- A disabled manifest as persisted on disk, and a directory pairing it
with the plugin `pdQ`. -/
def exDisabled : Manifest :=
  { name := some "q", displayName := some "Q", version := some "1.0.0",
    ptype := some "feature", description := some "", tools := [],
    enabled := some false }

def eDisabled : DirEntry :=
  { dirName := "q", manifest := some exDisabled, pdef := some pdQ }

theorem alookup_dictSet_self {α : Type} [DecidableEq α] {β : Type}
    (k : α) (v : β) (l : List (α × β)) : alookup k (dictSet k v l) = some v := by
  induction l with
  | nil => simp [dictSet, alookup]
  | cons p rest ih =>
    obtain ⟨k', v'⟩ := p
    by_cases h : k' = k <;> simp [dictSet, alookup, h, ih]

theorem alookup_dictSet_ne {α : Type} [DecidableEq α] {β : Type}
    (k k₀ : α) (v : β) (l : List (α × β)) (hne : k₀ ≠ k) :
    alookup k₀ (dictSet k v l) = alookup k₀ l := by
  induction l with
  | nil => simp [dictSet, alookup, Ne.symm hne]
  | cons p rest ih =>
    obtain ⟨k', v'⟩ := p
    by_cases h : k' = k
    · subst h
      simp [dictSet, alookup, Ne.symm hne, hne]
    · simp only [dictSet, if_neg h, alookup]
      by_cases h' : k' = k₀ <;> simp [h', ih]

theorem dictSet_of_alookup_eq {α : Type} [DecidableEq α] {β : Type}
    (k : α) (v : β) (l : List (α × β)) (h : alookup k l = some v) :
    dictSet k v l = l := by
  induction l with
  | nil => simp [alookup] at h
  | cons p rest ih =>
    obtain ⟨k', v'⟩ := p
    by_cases hk : k' = k
    · subst hk
      simp [alookup] at h
      simp [dictSet, h]
    · simp [alookup, hk] at h
      simp [dictSet, hk, ih h]

theorem alookup_removeKey_self {α : Type} [DecidableEq α] {β : Type}
    (k : α) (l : List (α × β)) : alookup k (removeKey k l) = none := by
  induction l with
  | nil => simp [removeKey, alookup]
  | cons p rest ih =>
    obtain ⟨k', v'⟩ := p
    by_cases h : k' = k
    · simpa [removeKey, h] using ih
    · simpa [removeKey, alookup, h] using ih

theorem alookup_removeKey_ne {α : Type} [DecidableEq α] {β : Type}
    (k k₀ : α) (l : List (α × β)) (hne : k₀ ≠ k) :
    alookup k₀ (removeKey k l) = alookup k₀ l := by
  induction l with
  | nil => simp [removeKey, alookup]
  | cons p rest ih =>
    obtain ⟨k', v'⟩ := p
    by_cases h : k' = k
    · have hne' : ¬(k' = k₀) := by
        rw [h]; exact Ne.symm hne
      simp [removeKey, alookup, h, hne', Ne.symm hne, ih]
    · by_cases h' : k' = k₀ <;>
        simp [removeKey, alookup, h, h', hne, Ne.symm hne, ih]

theorem runHookLoop_append (l₁ l₂ : List RunEntry) (c : PyVal) :
    runHookLoop (l₁ ++ l₂) c =
      match runHookLoop l₁ c with
      | .error e => .error e
      | .ok (c', true) => .ok (c', true)
      | .ok (c', false) => runHookLoop l₂ c' := by
  induction l₁ generalizing c with
  | nil => simp [runHookLoop]
  | cons h t ih =>
    obtain ⟨p, n, m⟩ := h
    simp only [List.cons_append, runHookLoop]
    cases hm : m c with
    | ok c₀ =>
      simp only [hm]
      cases hg : pyGet c₀ "__stop__" with
      | error e => simp [hg]
      | ok v =>
        by_cases hv : pyTruthy v = true <;> simp [hg, hv, ih]
    | error e =>
      simp only [hm]
      cases hg : pyGet c "__stop__" with
      | error e' => simp [hg]
      | ok v =>
        by_cases hv : pyTruthy v = true <;> simp [hg, hv, ih]

theorem runHookLoop_dict_total :
    ∀ (handlers : List RunEntry),
      (∀ e ∈ handlers, ∀ x y, e.2.2 x = Except.ok y →
         ∃ es', y = PyVal.dict es') →
      ∀ es : List (String × Bool),
        ∃ r, runHookLoop handlers (PyVal.dict es) = Except.ok r := by
  intro handlers
  induction handlers with
  | nil => intro _ es; exact ⟨(PyVal.dict es, false), rfl⟩
  | cons e t ih =>
    obtain ⟨p, n, m⟩ := e
    intro hdict es
    have ht := fun e he => hdict e (List.mem_cons_of_mem _ he)
    cases hm : m (PyVal.dict es) with
    | ok y =>
      obtain ⟨es', rfl⟩ := hdict (p, n, m) (List.mem_cons_self _ _) _ y hm
      by_cases hv : pyTruthy (alookup "__stop__" es') = true
      · exact ⟨(PyVal.dict es', true), by simp [runHookLoop, hm, pyGet, hv]⟩
      · obtain ⟨r, hr⟩ := ih ht es'
        exact ⟨r, by simp [runHookLoop, hm, pyGet, hv, hr]⟩
    | error e' =>
      by_cases hv : pyTruthy (alookup "__stop__" es) = true
      · exact ⟨(PyVal.dict es, true), by simp [runHookLoop, hm, pyGet, hv]⟩
      · obtain ⟨r, hr⟩ := ih ht es
        exact ⟨r, by simp [runHookLoop, hm, pyGet, hv, hr]⟩

/-- C4 — During `run_hook`, if any handler sets the reserved stop flag
(`context["__stop__"]`) on the context it returns, the dispatcher stops
immediately: no subsequent handler in that chain invocation is executed (the
result does not depend on `rest` at all) and the context as of that point is
returned. -/
theorem c4_stop_flag_halts_chain
    (pre rest : List RunEntry) (p : Int) (n : String)
    (h : PyVal → Except Unit PyVal) (c c₁ c₂ : PyVal) (v : Option Bool)
    (hpre : runHookLoop pre c = .ok (c₁, false))
    (hcall : h c₁ = .ok c₂)
    (hget : pyGet c₂ "__stop__" = .ok v)
    (hstop : pyTruthy v = true) :
    run_hook (pre ++ (p, n, h) :: rest) c = .ok c₂ := by
  unfold run_hook
  rw [runHookLoop_append, hpre]
  simp [runHookLoop, hcall, hget, hstop, Except.map]

theorem c4_stop_flag_halts_chain_witness :
    run_hook [(10, "a", fun _ => Except.ok (PyVal.dict [("__stop__", true)])),
              (0, "b", fun _ => Except.ok PyVal.nonDict)]
        (PyVal.dict []) = .ok (PyVal.dict [("__stop__", true)]) :=
  c4_stop_flag_halts_chain [] [(0, "b", fun _ => Except.ok PyVal.nonDict)]
    10 "a" (fun _ => Except.ok (PyVal.dict [("__stop__", true)]))
    (PyVal.dict []) (PyVal.dict []) (PyVal.dict [("__stop__", true)])
    (some true) rfl rfl rfl rfl

/-- C5 — During `run_hook`, a handler that raises is logged and skipped:
the chain behaves exactly as if the failing handler were deleted from it
(so every later handler still runs), the context carried into the next
handler is the context as it stood immediately before the failing call, and
`run_hook` returns whatever the remaining chain returns instead of
propagating the handler's error. -/
theorem c5_failing_handler_isolated
    (pre rest : List RunEntry) (p : Int) (n : String)
    (h : PyVal → Except Unit PyVal) (c c₁ : PyVal) (v : Option Bool)
    (hpre : runHookLoop pre c = .ok (c₁, false))
    (hcall : h c₁ = .error ())
    (hget : pyGet c₁ "__stop__" = .ok v)
    (hnostop : pyTruthy v = false) :
    run_hook (pre ++ (p, n, h) :: rest) c = run_hook (pre ++ rest) c := by
  unfold run_hook
  rw [runHookLoop_append, runHookLoop_append, hpre]
  simp [runHookLoop, hcall, hget, hnostop]

theorem c5_failing_handler_isolated_witness :
    run_hook [(5, "a", fun _ => Except.error ()),
              (0, "b", fun _ => Except.ok (PyVal.dict [("done", true)]))]
        (PyVal.dict []) =
      run_hook [(0, "b", fun _ => Except.ok (PyVal.dict [("done", true)]))]
        (PyVal.dict []) :=
  c5_failing_handler_isolated []
    [(0, "b", fun _ => Except.ok (PyVal.dict [("done", true)]))]
    5 "a" (fun _ => Except.error ()) (PyVal.dict []) (PyVal.dict [])
    none rfl rfl rfl rfl

/-- C10 — `run_hook` is total only under the precondition that every
handler that completes successfully returns a dict-like context: (1) if a
handler anywhere in the chain returns a value with no `get` method (for
example `None`, modelled by `PyVal.nonDict`), the subsequent stop-flag check
raises and the error propagates out of `run_hook`, escaping the
failure-isolation guarantee; (2) conversely, when the initial context is a
dict and every handler's successful results are dicts, `run_hook` returns a
context. -/
theorem c10_nondict_result_escapes :
    (∀ (pre rest : List RunEntry) (p : Int) (n : String)
       (h : PyVal → Except Unit PyVal) (c c₁ : PyVal),
       runHookLoop pre c = .ok (c₁, false) →
       h c₁ = .ok PyVal.nonDict →
       run_hook (pre ++ (p, n, h) :: rest) c = .error ()) ∧
    (∀ (handlers : List RunEntry) (es : List (String × Bool)),
       (∀ e ∈ handlers, ∀ x y, e.2.2 x = Except.ok y →
          ∃ es', y = PyVal.dict es') →
       ∃ c', run_hook handlers (PyVal.dict es) = .ok c') := by
  constructor
  · intro pre rest p n h c c₁ hpre hcall
    unfold run_hook
    rw [runHookLoop_append, hpre]
    simp [runHookLoop, hcall, pyGet, Except.map]
  · intro handlers es hdict
    obtain ⟨⟨c', s⟩, hr⟩ := runHookLoop_dict_total handlers hdict es
    exact ⟨c', by simp [run_hook, hr, Except.map]⟩

theorem c10_nondict_result_escapes_witness :
    run_hook [(0, "a", fun _ => Except.ok PyVal.nonDict)] (PyVal.dict [])
        = .error () ∧
    ∃ c', run_hook [(0, "a", fun _ => Except.ok (PyVal.dict []))]
        (PyVal.dict []) = .ok c' :=
  ⟨c10_nondict_result_escapes.1 [] [] 0 "a"
      (fun _ => Except.ok PyVal.nonDict) (PyVal.dict []) (PyVal.dict [])
      rfl rfl,
   c10_nondict_result_escapes.2 [(0, "a", fun _ => Except.ok (PyVal.dict []))]
      [] (fun e he x y hxy => by
        rw [List.mem_singleton] at he
        subst he
        exact ⟨[], (Except.ok.inj hxy).symm⟩)⟩

theorem strLeB_total : ∀ as bs, strLeB as bs = true ∨ strLeB bs as = true := by
  intro as
  induction as with
  | nil => intro bs; exact Or.inl rfl
  | cons a as ih =>
    intro bs
    cases bs with
    | nil => exact Or.inr rfl
    | cons b bs' =>
      rcases lt_trichotomy a b with h | h | h
      · exact Or.inl (by simp [strLeB, h])
      · subst h
        rcases ih bs' with h' | h'
        · exact Or.inl (by simp [strLeB, lt_irrefl, h'])
        · exact Or.inr (by simp [strLeB, lt_irrefl, h'])
      · exact Or.inr (by simp [strLeB, h])

theorem strLeB_cons (x y : Char) (xs ys : List Char) :
    strLeB (x :: xs) (y :: ys) = true ↔
      x < y ∨ (x = y ∧ strLeB xs ys = true) := by
  by_cases h₁ : x < y
  · simp [strLeB, h₁]
  · by_cases h₂ : y < x
    · simp [strLeB, h₁, h₂, ne_of_gt h₂]
    · have hx : x = y := le_antisymm (not_lt.mp h₂) (not_lt.mp h₁)
      simp [strLeB, h₁, h₂, hx]

theorem strLeB_trans :
    ∀ as bs cs, strLeB as bs = true → strLeB bs cs = true →
      strLeB as cs = true := by
  intro as
  induction as with
  | nil => intro bs cs _ _; rfl
  | cons a as ih =>
    intro bs cs hab hbc
    cases bs with
    | nil => simp [strLeB] at hab
    | cons b bs' =>
      cases cs with
      | nil => simp [strLeB] at hbc
      | cons c cs' =>
        rw [strLeB_cons] at hab hbc ⊢
        rcases hab with hab | ⟨hab, tab⟩
        · rcases hbc with hbc | ⟨hbc, _⟩
          · exact Or.inl (lt_trans hab hbc)
          · exact Or.inl (hbc ▸ hab)
        · rcases hbc with hbc | ⟨hbc, tbc⟩
          · exact Or.inl (hab ▸ hbc)
          · exact Or.inr ⟨hab.trans hbc, ih bs' cs' tab tbc⟩

theorem strLeB_antisymm :
    ∀ as bs, strLeB as bs = true → strLeB bs as = true → as = bs := by
  intro as
  induction as with
  | nil =>
    intro bs _ hba
    cases bs with
    | nil => rfl
    | cons b bs' => simp [strLeB] at hba
  | cons a as ih =>
    intro bs hab hba
    cases bs with
    | nil => simp [strLeB] at hab
    | cons b bs' =>
      rw [strLeB_cons] at hab hba
      rcases hab with hab | ⟨hab, tab⟩
      · rcases hba with hba | ⟨hba, _⟩
        · exact absurd hab (asymm hba)
        · exact absurd hab (hba ▸ lt_irrefl _)
      · rcases hba with hba | ⟨hba, tba⟩
        · exact absurd hba (hab ▸ lt_irrefl _)
        · rw [hab, ih bs' tab tba]

theorem strLeB_refl : ∀ as, strLeB as as = true := by
  intro as
  induction as with
  | nil => rfl
  | cons a as ih => simp [strLeB, lt_irrefl, ih]

theorem strLE_antisymm {a b : String} (hab : strLE a b) (hba : strLE b a) :
    a = b := by
  obtain ⟨as⟩ := a
  obtain ⟨bs⟩ := b
  exact congrArg String.mk (strLeB_antisymm as bs hab hba)

instance : IsTotal ChainEntry ChainLE where
  total a b := by
    rcases lt_trichotomy b.priority a.priority with h | h | h
    · exact Or.inl (Or.inl h)
    · rcases strLeB_total a.pluginName.data b.pluginName.data with hn | hn
      · exact Or.inl (Or.inr ⟨h.symm, hn⟩)
      · exact Or.inr (Or.inr ⟨h, hn⟩)
    · exact Or.inr (Or.inl h)

instance : IsTrans ChainEntry ChainLE where
  trans a b c hab hbc := by
    rcases hab with hab | ⟨hab, han⟩
    · rcases hbc with hbc | ⟨hbc, _⟩
      · exact Or.inl (lt_trans hbc hab)
      · exact Or.inl (hbc ▸ hab)
    · rcases hbc with hbc | ⟨hbc, hbn⟩
      · exact Or.inl (hab ▸ hbc)
      · exact Or.inr ⟨hab.trans hbc, strLeB_trans _ _ _ han hbn⟩

instance {β : Type} : IsTotal (String × β) keyLE where
  total a b := strLeB_total a.1.data b.1.data

instance {β : Type} : IsTrans (String × β) keyLE where
  trans _ _ _ hab hbc := strLeB_trans _ _ _ hab hbc

theorem eq_of_perm_keyNodup_sorted {β : Type} :
    ∀ (l₁ l₂ : List (String × β)), l₁.Perm l₂ →
      (l₁.map Prod.fst).Nodup →
      l₁.Sorted keyLE → l₂.Sorted keyLE → l₁ = l₂ := by
  intro l₁
  induction l₁ with
  | nil =>
    intro l₂ hp _ _ _
    exact (hp.symm.eq_nil).symm
  | cons a t₁ ih =>
    intro l₂ hp hn hs₁ hs₂
    cases l₂ with
    | nil => exact absurd hp.eq_nil (by simp)
    | cons b t₂ =>
      have ha2 : a ∈ b :: t₂ := hp.mem_iff.mp (List.mem_cons_self a t₁)
      have hb1 : b ∈ a :: t₁ := hp.mem_iff.mpr (List.mem_cons_self b t₂)
      have hab : a = b := by
        rcases List.mem_cons.mp ha2 with h | h
        · exact h
        · -- `a` occurs in `t₂`; its key equals `b`'s key, contradicting
          -- the key-uniqueness carried over to `l₂` by the permutation.
          exfalso
          have hkey : a.1 = b.1 := by
            have h₁ : keyLE a b := by
              rcases List.mem_cons.mp hb1 with h' | h'
              · exact h' ▸ strLeB_refl _
              · exact (List.sorted_cons.mp hs₁).1 b h'
            have h₂ : keyLE b a := (List.sorted_cons.mp hs₂).1 a h
            exact strLE_antisymm h₁ h₂
          have hn₂ : (b.1 :: t₂.map Prod.fst).Nodup := by
            simpa using (hp.map Prod.fst).nodup hn
          have : b.1 ∉ t₂.map Prod.fst := (List.nodup_cons.mp hn₂).1
          exact absurd (hkey ▸ List.mem_map_of_mem Prod.fst h) this
      subst hab
      have ht : t₁.Perm t₂ := hp.cons_inv
      have hnt : (t₁.map Prod.fst).Nodup := by
        have hn' : (a.1 :: t₁.map Prod.fst).Nodup := by simpa using hn
        exact (List.nodup_cons.mp hn').2
      have := ih t₂ ht hnt (List.sorted_cons.mp hs₁).2 (List.sorted_cons.mp hs₂).2
      rw [this]

/-- C3 — For any fixed set of loaded plugins and their hook declarations:
(1) the built chain is identical regardless of the order in which the
plugins were discovered or loaded (any permutation of the plugin table with
the same unique names yields the same chain); (2) every hook name's bucket
is ordered by descending priority with ties broken by ascending plugin
name. -/
theorem c3_hook_chain_deterministic_and_sorted :
    (∀ (ps₁ ps₂ : List (String × HookMap)),
       ps₁.Perm ps₂ → (ps₁.map Prod.fst).Nodup →
       build_hook_chain ps₁ = build_hook_chain ps₂) ∧
    (∀ (ps : List (String × HookMap)) (b : String × List ChainEntry),
       b ∈ build_hook_chain ps → List.Sorted ChainLE b.2) := by
  constructor
  · intro ps₁ ps₂ hp hn
    have hsorteq : List.insertionSort keyLE ps₁ = List.insertionSort keyLE ps₂ := by
      apply eq_of_perm_keyNodup_sorted
      · exact (List.perm_insertionSort keyLE ps₁).trans
          (hp.trans (List.perm_insertionSort keyLE ps₂).symm)
      · exact ((List.perm_insertionSort keyLE ps₁).map Prod.fst).symm.nodup hn
      · exact List.sorted_insertionSort keyLE ps₁
      · exact List.sorted_insertionSort keyLE ps₂
    unfold build_hook_chain
    rw [hsorteq]
  · intro ps b hb
    unfold build_hook_chain at hb
    obtain ⟨b₀, _, rfl⟩ := List.mem_map.mp hb
    exact List.sorted_insertionSort ChainLE b₀.2

theorem c3_hook_chain_deterministic_and_sorted_witness :
    build_hook_chain [("beta", hmBeta), ("alpha", hmAlpha)] =
      build_hook_chain [("alpha", hmAlpha), ("beta", hmBeta)] ∧
    List.Sorted ChainLE
      [{ priority := 5, pluginName := "alpha",
         method := { hookMeta := some [{ hookName := some "on_message_received",
                                         priority := some 5 }], fnId := 1 } },
       { priority := 5, pluginName := "beta",
         method := { hookMeta := some [{ hookName := some "on_message_received",
                                         priority := some 5 }], fnId := 2 } }] :=
  ⟨c3_hook_chain_deterministic_and_sorted.1
      [("beta", hmBeta), ("alpha", hmAlpha)]
      [("alpha", hmAlpha), ("beta", hmBeta)] (by decide) (by decide),
   c3_hook_chain_deterministic_and_sorted.2
      [("alpha", hmAlpha), ("beta", hmBeta)]
      ("on_message_received",
       [{ priority := 5, pluginName := "alpha",
          method := { hookMeta := some [{ hookName := some "on_message_received",
                                          priority := some 5 }], fnId := 1 } },
        { priority := 5, pluginName := "beta",
          method := { hookMeta := some [{ hookName := some "on_message_received",
                                          priority := some 5 }], fnId := 2 } }])
      (by decide)⟩

/-! ## Teardown lemmas -/

theorem busUnsubscribe_preserve (et : String) (cb : Nat)
    (b : List (String × Nat)) (s : String × Nat) (h : s ∉ b) :
    s ∉ busUnsubscribe et cb b := by
  intro hm
  simp only [busUnsubscribe, List.mem_filter] at hm
  exact h hm.1

theorem busUnsubscribe_self (et : String) (cb : Nat)
    (b : List (String × Nat)) : (et, cb) ∉ busUnsubscribe et cb b := by
  intro hm
  simp [busUnsubscribe] at hm

theorem busUnsubscribe_foldl_preserve :
    ∀ (subs bus : List (String × Nat)) (s : String × Nat),
      s ∉ bus →
      s ∉ subs.foldl (fun b (x : String × Nat) => busUnsubscribe x.1 x.2 b) bus := by
  intro subs
  induction subs with
  | nil => intro bus s h; simpa using h
  | cons x rest ih =>
    intro bus s h
    exact ih _ s (busUnsubscribe_preserve x.1 x.2 bus s h)

theorem busUnsubscribe_foldl_not_mem :
    ∀ (subs bus : List (String × Nat)) (s : String × Nat),
      s ∈ subs →
      s ∉ subs.foldl (fun b (x : String × Nat) => busUnsubscribe x.1 x.2 b) bus := by
  intro subs
  induction subs with
  | nil => intro bus s h; simp at h
  | cons x rest ih =>
    intro bus s hs
    rcases List.mem_cons.mp hs with h | h
    · subst h
      exact busUnsubscribe_foldl_preserve rest _ s (busUnsubscribe_self s.1 s.2 bus)
    · exact ih _ s h

theorem alookup_removeKey_none {α : Type} [DecidableEq α] {β : Type}
    (k k' : α) (l : List (α × β)) (h : alookup k l = none) :
    alookup k (removeKey k' l) = none := by
  by_cases hk : k = k'
  · subst hk; exact alookup_removeKey_self k l
  · rw [alookup_removeKey_ne k' k l hk]; exact h

theorem wrapFold_absent :
    ∀ (tws : List ToolWrapperEntry) (reg : List (String × String)) (k : String),
      alookup k reg = none →
      alookup k (tws.foldl
        (fun reg (tw : ToolWrapperEntry) => removeKey tw.ns reg) reg) = none := by
  intro tws
  induction tws with
  | nil => intro reg k h; exact h
  | cons tw rest ih =>
    intro reg k h
    exact ih _ k (alookup_removeKey_none k tw.ns reg h)

theorem wrapFold_mem :
    ∀ (tws : List ToolWrapperEntry) (reg : List (String × String))
      (tw : ToolWrapperEntry), tw ∈ tws →
      alookup tw.ns (tws.foldl
        (fun reg (tw : ToolWrapperEntry) => removeKey tw.ns reg) reg) = none := by
  intro tws
  induction tws with
  | nil => intro reg tw h; simp at h
  | cons x rest ih =>
    intro reg tw h
    rcases List.mem_cons.mp h with h | h
    · subst h
      exact wrapFold_absent rest _ tw.ns (alookup_removeKey_self tw.ns reg)
    · exact ih _ tw h

theorem proxyFold_absent :
    ∀ (descs : List ProxyDesc) (reg : List (String × String)) (k : String),
      alookup k reg = none →
      alookup k (descs.foldl
        (fun reg (d : ProxyDesc) =>
          if d.name ≠ "" then removeKey d.name reg else reg) reg) = none := by
  intro descs
  induction descs with
  | nil => intro reg k h; exact h
  | cons d rest ih =>
    intro reg k h
    rw [List.foldl_cons]
    by_cases hd : d.name = ""
    · rw [if_neg (by simp [hd])]
      exact ih _ k h
    · rw [if_pos hd]
      exact ih _ k (alookup_removeKey_none k d.name reg h)

theorem proxyFold_mem :
    ∀ (descs : List ProxyDesc) (reg : List (String × String))
      (d : ProxyDesc), d ∈ descs → d.name ≠ "" →
      alookup d.name (descs.foldl
        (fun reg (d : ProxyDesc) =>
          if d.name ≠ "" then removeKey d.name reg else reg) reg) = none := by
  intro descs
  induction descs with
  | nil => intro reg d h; simp at h
  | cons x rest ih =>
    intro reg d h hname
    rcases List.mem_cons.mp h with h | h
    · subst h
      rw [List.foldl_cons, if_pos hname]
      exact proxyFold_absent rest _ d.name (alookup_removeKey_self d.name reg)
    · rw [List.foldl_cons]
      exact ih _ d h hname

/-- C9 — `unload_plugin(name)` returns `false` if and only if no plugin
named `name` is loaded at the time of the call; when the plugin is loaded
it returns `true` — for *every* record, including ones whose `on_unload`
raises or whose `get_tool_modules` raises during tool unregistration — and
the `_plugins` record is removed and the hook-chain cache invalidated. -/
theorem c9_unload_returns_iff_loaded :
    ∀ (w : World) (st : PMState) (name : String) (useRegistry : Bool),
      ((unload_plugin w st name useRegistry).2.2 = false ↔
        alookup name st.plugins = none) ∧
      (∀ r, alookup name st.plugins = some r →
        (unload_plugin w st name useRegistry).2.2 = true ∧
        alookup name (unload_plugin w st name useRegistry).2.1.plugins = none ∧
        (unload_plugin w st name useRegistry).2.1.hookChainCache = none) := by
  intro w st name useRegistry
  cases h : alookup name st.plugins with
  | none =>
    constructor
    · simp [unload_plugin, h]
    · intro r hr
      exact Option.noConfusion hr
  | some r =>
    constructor
    · simp [unload_plugin, h]
    · intro r' _
      cases hs : alookup name st.eventSubs with
      | none =>
        exact ⟨by simp [unload_plugin, h, hs],
               by simp [unload_plugin, h, hs, alookup_removeKey_self],
               by simp [unload_plugin, h, hs]⟩
      | some subs =>
        exact ⟨by simp [unload_plugin, h, hs],
               by simp [unload_plugin, h, hs, alookup_removeKey_self],
               by simp [unload_plugin, h, hs]⟩

theorem c9_unload_returns_iff_loaded_witness :
    ((unload_plugin wQ stQraise "q" true).2.2 = true ∧
     alookup "q" (unload_plugin wQ stQraise "q" true).2.1.plugins = none ∧
     (unload_plugin wQ stQraise "q" true).2.1.hookChainCache = none) ∧
    (unload_plugin wQ stQraise "nosuch" true).2.2 = false :=
  ⟨(c9_unload_returns_iff_loaded wQ stQraise "q" true).2 recQraise rfl,
   (c9_unload_returns_iff_loaded wQ stQraise "nosuch" true).1.mpr (by decide)⟩

/-- C2 counterexample — the claim asserts that after `unload_plugin`
returns, *zero* tool-registry registrations attributable to the plugin
remain.  `pdEmptyName`'s only tool is a module-backed auto-register dynamic
descriptor whose `name` defaults to `""`: `register_tools_to_agent` (lines
361-372) registers it under the empty namespace, but teardown's
`if tool_name:` guard (line 539) skips empty names, so after a successful
unload the registration is still present. -/
theorem c2_counterexample :
    (∃ d ∈ proxyToolsOf pdEmptyName,
      d.name = "" ∧ d.autoRegister = true ∧ d.hasModule = true) ∧
    register_tools_to_agent w0 stEmptyName [] =
      Except.ok (wEmptyName, 1) ∧
    (unload_plugin wEmptyName stEmptyName "en" true).2.2 = true ∧
    alookup "" (unload_plugin wEmptyName stEmptyName "en" true).1.registry =
      some "extended" := by
  decide

/-- C2 (amended) — For every loaded plugin, after
`unload_plugin(name, registry)` returns: the subscription-tracking entry is
gone, every event-bus subscription recorded for that plugin has been
removed from the bus, every wrapper namespace of the plugin has been
unregistered, and every *non-empty* dynamically-declared proxy namespace
has been unregistered — all of this regardless of whether the plugin's
`on_unload` callback raises (the record `r` is arbitrary, including
`r.pdef.onUnloadRaises = true`): every teardown step executes even when a
prior step failed.  A registration under the empty namespace (a dynamic
descriptor whose `name` defaults to `""`) is skipped by the
`if tool_name:` guard at line 539 and survives (`c2_counterexample`). -/
theorem c2_teardown_complete :
    ∀ (w : World) (st : PMState) (name : String) (r : PluginRecord),
      alookup name st.plugins = some r →
      alookup name (unload_plugin w st name true).2.1.eventSubs = none ∧
      (∀ subs s, alookup name st.eventSubs = some subs → s ∈ subs →
        s ∉ (unload_plugin w st name true).1.bus) ∧
      (∀ tw ∈ r.pdef.toolWrappers,
        alookup tw.ns (unload_plugin w st name true).1.registry = none) ∧
      (∀ d ∈ proxyToolsOf r.pdef, d.name ≠ "" →
        alookup d.name (unload_plugin w st name true).1.registry = none) := by
  intro w st name r h
  cases hs : alookup name st.eventSubs with
  | none =>
    refine ⟨by simp [unload_plugin, h, hs], ?_, ?_, ?_⟩
    · intro subs s hsubs
      exact absurd hsubs (by simp)
    · intro tw htw
      cases hg : r.pdef.getToolModules with
      | none =>
        simpa [unload_plugin, h, hs, hg] using
          wrapFold_mem r.pdef.toolWrappers w.registry tw htw
      | some res =>
        cases res with
        | error e =>
          simpa [unload_plugin, h, hs, hg] using
            wrapFold_mem r.pdef.toolWrappers w.registry tw htw
        | ok descs =>
          simp only [unload_plugin, h, hs, hg]
          exact proxyFold_absent descs _ tw.ns
            (wrapFold_mem r.pdef.toolWrappers w.registry tw htw)
    · intro d hd hname
      cases hg : r.pdef.getToolModules with
      | none => simp [proxyToolsOf, hg] at hd
      | some res =>
        cases res with
        | error e => simp [proxyToolsOf, hg] at hd
        | ok descs =>
          rw [proxyToolsOf, hg] at hd
          simp only [unload_plugin, h, hs, hg]
          exact proxyFold_mem descs _ d hd hname
  | some subs₀ =>
    refine ⟨by simp [unload_plugin, h, hs, alookup_removeKey_self], ?_, ?_, ?_⟩
    · intro subs s hsubs hmem
      obtain rfl : subs₀ = subs := Option.some.inj hsubs
      simpa [unload_plugin, h, hs] using
        busUnsubscribe_foldl_not_mem subs₀ w.bus s hmem
    · intro tw htw
      cases hg : r.pdef.getToolModules with
      | none =>
        simpa [unload_plugin, h, hs, hg] using
          wrapFold_mem r.pdef.toolWrappers w.registry tw htw
      | some res =>
        cases res with
        | error e =>
          simpa [unload_plugin, h, hs, hg] using
            wrapFold_mem r.pdef.toolWrappers w.registry tw htw
        | ok descs =>
          simp only [unload_plugin, h, hs, hg]
          exact proxyFold_absent descs _ tw.ns
            (wrapFold_mem r.pdef.toolWrappers w.registry tw htw)
    · intro d hd hname
      cases hg : r.pdef.getToolModules with
      | none => simp [proxyToolsOf, hg] at hd
      | some res =>
        cases res with
        | error e => simp [proxyToolsOf, hg] at hd
        | ok descs =>
          rw [proxyToolsOf, hg] at hd
          simp only [unload_plugin, h, hs, hg]
          exact proxyFold_mem descs _ d hd hname

theorem c2_teardown_complete_witness :
    alookup "q" (unload_plugin wQ stQ "q" true).2.1.eventSubs = none ∧
    ("e", 1) ∉ (unload_plugin wQ stQ "q" true).1.bus ∧
    alookup "t1" (unload_plugin wQ stQ "q" true).1.registry = none ∧
    alookup "pt" (unload_plugin wQ stQ "q" true).1.registry = none :=
  ⟨(c2_teardown_complete wQ stQ "q" recQ rfl).1,
   (c2_teardown_complete wQ stQ "q" recQ rfl).2.1 [("e", 1)] ("e", 1) rfl
     (by decide),
   (c2_teardown_complete wQ stQ "q" recQ rfl).2.2.1
     { ns := "t1", level := "core", autoRegister := true } (by decide),
   (c2_teardown_complete wQ stQ "q" recQ rfl).2.2.2
     { name := "pt", hasModule := true, level := "extended",
       autoRegister := true, requiresAgentId := false } (by decide) (by decide)⟩

/-- C1 counterexample — the claim asserts that when `on_load` raises the
registration is not rolled back: the `PluginRecord` is still inserted, the
plugin remains loaded and the load returns the plugin name.  On the code,
`plugin_instance.on_load()` (line 302) runs *before* the record insertion
(line 304) and is not wrapped in any `try`, so at this concrete input the
load raises, no record is inserted, and `discover_and_load` returns no
name. -/
theorem c1_counterexample :
    (load_plugin w0 st0 eFail).2.2.2 = LoadResult.raised ∧
    (load_plugin w0 st0 eFail).2.1.plugins = [] ∧
    (discover_and_load w0 st0 [eFail]).2.2.2 = [] := by
  decide

/-- C1 (amended) — If a plugin's `on_load` raises during load, the
exception propagates out of `_load_new_style` *before* the `PluginRecord`
is inserted: the plugin table is untouched and no name is returned;
`discover_and_load` catches and logs the failure and omits the plugin from
the loaded list; side effects already performed are not rolled back — the
event subscriptions remain bound and recorded, and the regenerated manifest
remains written. -/
theorem c1_amended_onload_failure_no_record :
    ∀ (w : World) (st : PMState) (e : DirEntry) (p : PluginDef),
      e.pdef = some p → p.onLoadRaises = true →
      (∀ m, e.manifest = some m → m.enabled.getD true = true) →
      (load_plugin w st e).2.2.2 = LoadResult.raised ∧
      alookup p.declName (load_plugin w st e).2.1.plugins =
        alookup p.declName st.plugins ∧
      (load_plugin w st e).2.2.1.manifest = some (regenManifest p e.manifest) ∧
      (p.eventMethods ≠ [] →
        alookup p.declName (load_plugin w st e).2.1.eventSubs =
          some p.eventMethods) ∧
      (discover_and_load w st [e]).2.2.2 = [] := by
  intro w st e p hpdef hraise hgate
  have hproceed :
      load_plugin w st e = loadProceed w st e p := by
    cases he : e.manifest with
    | none => simp [load_plugin, hpdef, he]
    | some m => simp [load_plugin, hpdef, he, hgate m he]
  have hempty : ∀ (q : Prop), q → q := fun _ h => h
  by_cases hev : p.eventMethods.isEmpty
  · refine ⟨?_, ?_, ?_, ?_, ?_⟩
    · simp [hproceed, loadProceed, hraise, hev]
    · simp [hproceed, loadProceed, hraise, hev]
    · simp [hproceed, loadProceed, hraise, hev]
    · intro hne
      exact absurd (List.isEmpty_iff.mp hev) hne
    · simp [discover_and_load, hproceed, loadProceed, hraise, hev]
  · refine ⟨?_, ?_, ?_, ?_, ?_⟩
    · simp [hproceed, loadProceed, hraise, hev]
    · simp [hproceed, loadProceed, hraise, hev]
    · simp [hproceed, loadProceed, hraise, hev]
    · intro _
      simp [hproceed, loadProceed, hraise, hev, alookup_dictSet_self]
    · simp [discover_and_load, hproceed, loadProceed, hraise, hev]

theorem c1_amended_onload_failure_no_record_witness :
    (load_plugin w0 st0 eFail).2.2.2 = LoadResult.raised ∧
    alookup "p" (load_plugin w0 st0 eFail).2.1.plugins = none ∧
    alookup "p" (load_plugin w0 st0 eFail).2.1.eventSubs =
      some [("evt", 7)] ∧
    (discover_and_load w0 st0 [eFail]).2.2.2 = [] := by
  obtain ⟨h1, h2, _, h4, h5⟩ :=
    c1_amended_onload_failure_no_record w0 st0 eFail pdFail rfl rfl
      (fun m hm => Option.noConfusion hm)
  exact ⟨h1, h2.trans rfl, h4 (by decide), h5⟩

/-! ## Tool binder lemmas -/

theorem eligibleNamespace_cons (allow : List String)
    (pr : String × PluginRecord) (rest : List (String × PluginRecord))
    (ns : String) :
    eligibleNamespace allow (pr :: rest) ns ↔
      ((∃ tw ∈ pr.2.pdef.toolWrappers,
          tw.ns = ns ∧ (tw.autoRegister = true ∨ ns ∈ allow)) ∨
       (∃ d ∈ proxyToolsOf pr.2.pdef,
          d.name = ns ∧ d.hasModule = true ∧
            (d.autoRegister = true ∨ ns ∈ allow))) ∨
      eligibleNamespace allow rest ns := by
  simp [eligibleNamespace, List.exists_mem_cons_iff]

theorem registerWrappers_spec (allow : List String) :
    ∀ (tws : List ToolWrapperEntry) (acc : World × Nat) (ns : String),
      (alookup ns (registerWrappers allow tws acc).1.registry).isSome ↔
        ((alookup ns acc.1.registry).isSome ∨
          ∃ tw ∈ tws, tw.ns = ns ∧ (tw.autoRegister = true ∨ ns ∈ allow)) := by
  intro tws
  induction tws with
  | nil => intro acc ns; simp [registerWrappers]
  | cons x rest ih =>
    intro acc ns
    have hstep : registerWrappers allow (x :: rest) acc =
        registerWrappers allow rest
          (if x.autoRegister || decide (x.ns ∈ allow) then
            ({ acc.1 with registry := dictSet x.ns x.level acc.1.registry },
             acc.2 + 1)
          else acc) := by
      simp [registerWrappers]
    rw [hstep, ih]
    by_cases hc : (x.autoRegister || decide (x.ns ∈ allow)) = true
    · rw [if_pos hc]
      by_cases hns : ns = x.ns
      · subst hns
        simp only [alookup_dictSet_self, Option.isSome_some, true_or, true_iff]
        have hflag : x.autoRegister = true ∨ x.ns ∈ allow := by
          simpa using hc
        exact Or.inr ⟨x, List.mem_cons_self _ _, rfl, hflag⟩
      · rw [show (alookup ns (dictSet x.ns x.level acc.1.registry)) =
              alookup ns acc.1.registry from
              alookup_dictSet_ne x.ns ns x.level _ hns]
        constructor
        · rintro (hb | ⟨tw, htw, h1, h2⟩)
          · exact Or.inl hb
          · exact Or.inr ⟨tw, List.mem_cons_of_mem _ htw, h1, h2⟩
        · rintro (hb | ⟨tw, htw, h1, h2⟩)
          · exact Or.inl hb
          · rcases List.mem_cons.mp htw with rfl | htw'
            · exact absurd h1.symm hns
            · exact Or.inr ⟨tw, htw', h1, h2⟩
    · rw [if_neg hc]
      constructor
      · rintro (hb | ⟨tw, htw, h1, h2⟩)
        · exact Or.inl hb
        · exact Or.inr ⟨tw, List.mem_cons_of_mem _ htw, h1, h2⟩
      · rintro (hb | ⟨tw, htw, h1, h2⟩)
        · exact Or.inl hb
        · rcases List.mem_cons.mp htw with rfl | htw'
          · exfalso
            apply hc
            rcases h2 with h2 | h2
            · simp [h2]
            · simp [h1 ▸ h2]
          · exact Or.inr ⟨tw, htw', h1, h2⟩

theorem registerProxies_spec (allow : List String) :
    ∀ (descs : List ProxyDesc) (acc : World × Nat) (ns : String),
      (alookup ns (registerProxies allow descs acc).1.registry).isSome ↔
        ((alookup ns acc.1.registry).isSome ∨
          ∃ d ∈ descs, d.name = ns ∧ d.hasModule = true ∧
            (d.autoRegister = true ∨ ns ∈ allow)) := by
  intro descs
  induction descs with
  | nil => intro acc ns; simp [registerProxies]
  | cons x rest ih =>
    intro acc ns
    have hstep : registerProxies allow (x :: rest) acc =
        registerProxies allow rest
          (if (x.autoRegister || decide (x.name ∈ allow)) && x.hasModule then
            ({ acc.1 with registry := dictSet x.name x.level acc.1.registry },
             acc.2 + 1)
          else acc) := by
      simp [registerProxies]
    rw [hstep, ih]
    by_cases hc : ((x.autoRegister || decide (x.name ∈ allow)) && x.hasModule) = true
    · rw [if_pos hc]
      by_cases hns : ns = x.name
      · subst hns
        simp only [alookup_dictSet_self, Option.isSome_some, true_or, true_iff]
        have hc' : (x.autoRegister || decide (x.name ∈ allow)) = true ∧
            x.hasModule = true := by
          simpa using hc
        have hflag : x.autoRegister = true ∨ x.name ∈ allow := by
          simpa using hc'.1
        exact Or.inr ⟨x, List.mem_cons_self _ _, rfl, hc'.2, hflag⟩
      · rw [show (alookup ns (dictSet x.name x.level acc.1.registry)) =
              alookup ns acc.1.registry from
              alookup_dictSet_ne x.name ns x.level _ hns]
        constructor
        · rintro (hb | ⟨d, hd, h1, h2, h3⟩)
          · exact Or.inl hb
          · exact Or.inr ⟨d, List.mem_cons_of_mem _ hd, h1, h2, h3⟩
        · rintro (hb | ⟨d, hd, h1, h2, h3⟩)
          · exact Or.inl hb
          · rcases List.mem_cons.mp hd with rfl | hd'
            · exact absurd h1.symm hns
            · exact Or.inr ⟨d, hd', h1, h2, h3⟩
    · rw [if_neg hc]
      constructor
      · rintro (hb | ⟨d, hd, h1, h2, h3⟩)
        · exact Or.inl hb
        · exact Or.inr ⟨d, List.mem_cons_of_mem _ hd, h1, h2, h3⟩
      · rintro (hb | ⟨d, hd, h1, h2, h3⟩)
        · exact Or.inl hb
        · rcases List.mem_cons.mp hd with rfl | hd'
          · exfalso
            apply hc
            have hflag : (d.autoRegister || decide (d.name ∈ allow)) = true := by
              rcases h3 with h3 | h3
              · simp [h3]
              · simp [h1 ▸ h3]
            simp [hflag, h2]
          · exact Or.inr ⟨d, hd', h1, h2, h3⟩

theorem registerLoop_spec (allow : List String) :
    ∀ (l : List (String × PluginRecord)) (w : World) (c : Nat),
      (∀ pr ∈ l, pr.2.pdef.getToolModules ≠ some (Except.error ())) →
      ∃ w' c', registerLoop allow l w c = Except.ok (w', c') ∧
        (∀ ns, (alookup ns w'.registry).isSome ↔
          ((alookup ns w.registry).isSome ∨ eligibleNamespace allow l ns)) := by
  intro l
  induction l with
  | nil =>
    intro w c _
    exact ⟨w, c, rfl, by simp [eligibleNamespace]⟩
  | cons pr rest ih =>
    obtain ⟨name, r⟩ := pr
    intro w c hl
    have hrhead := hl (name, r) (List.mem_cons_self _ _)
    have hrest := fun pr hpr => hl pr (List.mem_cons_of_mem _ hpr)
    cases hg : r.pdef.getToolModules with
    | none =>
      obtain ⟨w', c', heq, hspec⟩ :=
        ih (registerWrappers allow r.pdef.toolWrappers (w, c)).1
           (registerWrappers allow r.pdef.toolWrappers (w, c)).2 hrest
      refine ⟨w', c', by simp [registerLoop, hg, heq], ?_⟩
      intro ns
      rw [hspec ns, registerWrappers_spec allow r.pdef.toolWrappers (w, c) ns,
          eligibleNamespace_cons]
      have hproxy : proxyToolsOf (r.pdef) = [] := by simp [proxyToolsOf, hg]
      rw [hproxy]
      simp only [List.not_mem_nil, false_and, exists_false, or_false, or_assoc]
    | some res =>
      cases res with
      | error e =>
        cases e
        exact absurd hg hrhead
      | ok descs =>
        obtain ⟨w', c', heq, hspec⟩ :=
          ih (registerProxies allow descs
                (registerWrappers allow r.pdef.toolWrappers (w, c))).1
             (registerProxies allow descs
                (registerWrappers allow r.pdef.toolWrappers (w, c))).2 hrest
        refine ⟨w', c', by simp [registerLoop, hg, heq], ?_⟩
        intro ns
        rw [hspec ns,
            registerProxies_spec allow descs
              (registerWrappers allow r.pdef.toolWrappers (w, c)) ns,
            registerWrappers_spec allow r.pdef.toolWrappers (w, c) ns,
            eligibleNamespace_cons]
        have hproxy : proxyToolsOf (r.pdef) = descs := by simp [proxyToolsOf, hg]
        rw [hproxy]
        simp only [or_assoc]

/-- C8 counterexample — the claim asserts that *every* namespace satisfying
the eligibility rule (auto-register flag set, or name in the allow-list) is
registered.  Concretely: a plugin whose dynamic query declares the
namespace `"t"` with `auto_register = True` but `module = None` is eligible
under the claim's rule, yet `register_tools_to_agent` registers nothing
(line 369-370 skips descriptors with no module). -/
theorem c8_counterexample :
    (∃ d ∈ proxyToolsOf pdNoModule, d.name = "t" ∧ d.autoRegister = true) ∧
    register_tools_to_agent w0 stNoModule [] = Except.ok (w0, 0) ∧
    alookup "t" w0.registry = none := by
  decide

/-- C8 (amended) — In `register_tools_to_agent`, a tool namespace is
registered if and only if it is eligible *and*, for dynamic descriptors,
its backing module is present: starting from an empty registry, provided no
plugin's `get_tool_modules` raises (an unguarded raise propagates out of
the method), the method returns normally and the final registry contains
exactly the namespaces of `eligibleNamespace` — wrapper bundles whose
auto-register flag is set or whose namespace is allow-listed, and
module-backed dynamic descriptors under the same flag-or-allow-list
rule. -/
theorem c8_amended_registration_iff_eligible :
    ∀ (w : World) (st : PMState) (allow : List String),
      w.registry = [] →
      (∀ pr ∈ st.plugins, pr.2.pdef.getToolModules ≠ some (Except.error ())) →
      ∃ w' count, register_tools_to_agent w st allow = Except.ok (w', count) ∧
        ∀ ns, (alookup ns w'.registry).isSome ↔
          eligibleNamespace allow st.plugins ns := by
  intro w st allow hreg hsafe
  obtain ⟨w', c', heq, hspec⟩ := registerLoop_spec allow st.plugins w 0 hsafe
  refine ⟨w', c', heq, fun ns => ?_⟩
  rw [hspec ns, hreg]
  simp [alookup]

theorem c8_amended_registration_iff_eligible_witness :
    ∃ w' count,
      register_tools_to_agent w0 stQ [] = Except.ok (w', count) ∧
      ∀ ns, (alookup ns w'.registry).isSome ↔
        eligibleNamespace [] stQ.plugins ns :=
  c8_amended_registration_iff_eligible w0 stQ [] rfl (by decide)

/-- C6 — When the manifest is regenerated during load, every field is
rebuilt from the extracted metadata (the written manifest with a prior file
present equals the one written with no prior file) *except* the `enabled`
flag, which is carried over from the previously persisted manifest; and
when the persisted manifest says `enabled: false`, the load is skipped
before any write, so the persisted `false` survives regardless of declared
tool changes. -/
theorem c6_manifest_enabled_carry :
    ∀ (p : PluginDef) (ex : Manifest),
      regenManifest p (some ex) =
        { regenManifest p none with enabled := some (ex.enabled.getD true) } ∧
      (∀ (w : World) (st : PMState) (e : DirEntry),
        e.manifest = some ex → ex.enabled = some false →
        load_plugin w st e = (w, st, e, LoadResult.ok none)) := by
  intro p ex
  constructor
  · rfl
  · intro w st e he hfalse
    cases hp : e.pdef with
    | none => simp [load_plugin, hp]
    | some p' => simp [load_plugin, hp, he, hfalse]

theorem c6_manifest_enabled_carry_witness :
    regenManifest pdQ (some exDisabled) =
      { regenManifest pdQ none with enabled := some false } ∧
    load_plugin w0 st0 eDisabled = (w0, st0, eDisabled, LoadResult.ok none) :=
  ⟨(c6_manifest_enabled_carry pdQ exDisabled).1,
   (c6_manifest_enabled_carry pdQ exDisabled).2 w0 st0 eDisabled rfl rfl⟩

/-! ## Reconciler lemmas: association maps, the disk map, disk updates -/

theorem alookup_mem {α : Type} [DecidableEq α] {β : Type} :
    ∀ (l : List (α × β)) (k : α) (v : β),
      alookup k l = some v → (k, v) ∈ l := by
  intro l
  induction l with
  | nil => intro k v h; simp [alookup] at h
  | cons p rest ih =>
    intro k v h
    obtain ⟨k', v'⟩ := p
    by_cases hk : k' = k
    · subst hk
      simp [alookup] at h
      subst h
      exact List.mem_cons_self _ _
    · simp [alookup, hk] at h
      exact List.mem_cons_of_mem _ (ih k v h)

theorem mem_keys_alookup_isSome {α : Type} [DecidableEq α] {β : Type} :
    ∀ (l : List (α × β)) (k : α),
      k ∈ l.map Prod.fst → (alookup k l).isSome = true := by
  intro l
  induction l with
  | nil => intro k h; simp at h
  | cons p rest ih =>
    intro k h
    obtain ⟨k', v'⟩ := p
    by_cases hk : k' = k
    · simp [alookup, hk]
    · simp only [List.map_cons, List.mem_cons] at h
      rcases h with h | h
      · exact absurd h.symm hk
      · simpa [alookup, hk] using ih k h

theorem alookup_of_mem_nodup {α : Type} [DecidableEq α] {β : Type} :
    ∀ (l : List (α × β)) (k : α) (v : β),
      (l.map Prod.fst).Nodup → (k, v) ∈ l → alookup k l = some v := by
  intro l
  induction l with
  | nil => intro k v _ h; simp at h
  | cons p rest ih =>
    intro k v hn h
    obtain ⟨k', v'⟩ := p
    rcases List.mem_cons.mp h with h | h
    · obtain ⟨rfl, rfl⟩ := Prod.mk.inj h.symm
      simp [alookup]
    · have hk : k' ≠ k := by
        intro hkk
        subst hkk
        have : k' ∈ rest.map Prod.fst :=
          List.mem_map_of_mem Prod.fst h
        simp only [List.map_cons, List.nodup_cons] at hn
        exact hn.1 this
      simp only [alookup, if_neg hk]
      exact ih k v (by simpa using (List.nodup_cons.mp (by simpa using hn)).2) h

theorem mem_dictSet {α : Type} [DecidableEq α] {β : Type} :
    ∀ (l : List (α × β)) (k : α) (v : β) (kv : α × β),
      kv ∈ dictSet k v l → kv = (k, v) ∨ kv ∈ l := by
  intro l
  induction l with
  | nil => intro k v kv h; simpa [dictSet] using h
  | cons p rest ih =>
    intro k v kv h
    obtain ⟨k', v'⟩ := p
    by_cases hk : k' = k
    · rw [dictSet, if_pos hk] at h
      rcases List.mem_cons.mp h with h | h
      · exact Or.inl h
      · exact Or.inr (List.mem_cons_of_mem _ h)
    · rw [dictSet, if_neg hk] at h
      rcases List.mem_cons.mp h with h | h
      · exact Or.inr (h ▸ List.mem_cons_self _ _)
      · rcases ih k v kv h with h | h
        · exact Or.inl h
        · exact Or.inr (List.mem_cons_of_mem _ h)

theorem dictSet_keys_subset {α : Type} [DecidableEq α] {β : Type}
    (l : List (α × β)) (k : α) (v : β) (x : α)
    (h : x ∈ (dictSet k v l).map Prod.fst) :
    x = k ∨ x ∈ l.map Prod.fst := by
  obtain ⟨kv, hkv, rfl⟩ := List.mem_map.mp h
  rcases mem_dictSet l k v kv hkv with h | h
  · exact Or.inl (by rw [h])
  · exact Or.inr (List.mem_map_of_mem Prod.fst h)

theorem dictSet_keys_nodup {α : Type} [DecidableEq α] {β : Type} :
    ∀ (l : List (α × β)) (k : α) (v : β),
      (l.map Prod.fst).Nodup → ((dictSet k v l).map Prod.fst).Nodup := by
  intro l
  induction l with
  | nil => intro k v _; simp [dictSet]
  | cons p rest ih =>
    intro k v hn
    obtain ⟨k', v'⟩ := p
    simp only [List.map_cons, List.nodup_cons] at hn
    by_cases hk : k' = k
    · subst hk
      simpa [dictSet, List.nodup_cons] using hn
    · rw [dictSet, if_neg hk]
      simp only [List.map_cons, List.nodup_cons]
      refine ⟨?_, ih k v hn.2⟩
      intro hmem
      rcases dictSet_keys_subset rest k v k' hmem with h | h
      · exact hk h
      · exact hn.1 h

theorem diskPlugins_aux_sound :
    ∀ (disk : Disk) (acc : List (String × DirEntry))
      (kv : String × DirEntry),
      kv ∈ disk.foldl (fun a e => dictSet (keyOf e) e a) acc →
      (kv.2 ∈ disk ∧ keyOf kv.2 = kv.1) ∨ kv ∈ acc := by
  intro disk
  induction disk with
  | nil => intro acc kv h; exact Or.inr h
  | cons e rest ih =>
    intro acc kv h
    rcases ih (dictSet (keyOf e) e acc) kv h with h | h
    · exact Or.inl ⟨List.mem_cons_of_mem _ h.1, h.2⟩
    · rcases mem_dictSet acc (keyOf e) e kv h with h | h
      · subst h
        exact Or.inl ⟨List.mem_cons_self _ _, rfl⟩
      · exact Or.inr h

theorem diskPlugins_sound (disk : Disk) :
    ∀ kv ∈ diskPlugins disk, kv.2 ∈ disk ∧ keyOf kv.2 = kv.1 := by
  intro kv h
  rcases diskPlugins_aux_sound disk [] kv h with h | h
  · exact h
  · simp at h

theorem diskPlugins_aux_nodup :
    ∀ (disk : Disk) (acc : List (String × DirEntry)),
      (acc.map Prod.fst).Nodup →
      ((disk.foldl (fun a e => dictSet (keyOf e) e a) acc).map
        Prod.fst).Nodup := by
  intro disk
  induction disk with
  | nil => intro acc h; exact h
  | cons e rest ih =>
    intro acc h
    exact ih _ (dictSet_keys_nodup acc (keyOf e) e h)

theorem diskPlugins_keys_nodup (disk : Disk) :
    ((diskPlugins disk).map Prod.fst).Nodup :=
  diskPlugins_aux_nodup disk [] (by simp)

theorem find?_dirName_self :
    ∀ (disk : Disk) (e : DirEntry), e ∈ disk →
      (disk.map (fun d => d.dirName)).Nodup →
      disk.find? (fun d => decide (d.dirName = e.dirName)) = some e := by
  intro disk
  induction disk with
  | nil => intro e h; simp at h
  | cons d rest ih =>
    intro e he hn
    simp only [List.map_cons, List.nodup_cons] at hn
    by_cases hd : d.dirName = e.dirName
    · have hde : d = e := by
        rcases List.mem_cons.mp he with h | h
        · exact h.symm
        · exfalso
          apply hn.1
          rw [hd]
          exact List.mem_map_of_mem _ h
      rw [List.find?_cons_of_pos _ (by simp [hd])]
      exact congrArg some hde
    · have he' : e ∈ rest := by
        rcases List.mem_cons.mp he with h | h
        · exact absurd (by rw [h]) hd
        · exact h
      rw [List.find?_cons_of_neg _ (by simp [hd])]
      exact ih e he' hn.2

theorem dirEntry_eta (e : DirEntry) :
    ({ e with manifest := e.manifest } : DirEntry) = e := rfl

theorem updateDirManifest_self :
    ∀ (disk : Disk) (e : DirEntry), e ∈ disk →
      (disk.map (fun d => d.dirName)).Nodup →
      updateDirManifest disk e.dirName e.manifest = disk := by
  intro disk e he hn
  have hinj := List.inj_on_of_nodup_map hn
  unfold updateDirManifest
  have : ∀ d ∈ disk, setManifest e.dirName e.manifest d = d := by
    intro d hd
    by_cases h : d.dirName = e.dirName
    · have hde : d = e := hinj hd he h
      subst hde
      simp [setManifest]
    · simp [setManifest, h]
  calc disk.map _ = disk.map id := List.map_congr_left this
    _ = disk := List.map_id disk

theorem updateDirManifest_dirNames (disk : Disk) (dn : String)
    (m : Option Manifest) :
    (updateDirManifest disk dn m).map (fun d => d.dirName) =
      disk.map (fun d => d.dirName) := by
  unfold updateDirManifest
  rw [List.map_map]
  apply List.map_congr_left
  intro d _
  by_cases h : d.dirName = dn <;> simp [Function.comp, setManifest, h]

theorem mem_updateDirManifest_other (disk : Disk) (dn : String)
    (m : Option Manifest) (d : DirEntry) (hd : d ∈ disk)
    (hne : d.dirName ≠ dn) : d ∈ updateDirManifest disk dn m := by
  unfold updateDirManifest
  exact List.mem_map.mpr ⟨d, hd, by simp [setManifest, hne]⟩

theorem dictSet_map_snd {α : Type} [DecidableEq α] {β : Type}
    (f : β → β) :
    ∀ (l : List (α × β)) (k : α) (v : β),
      dictSet k (f v) (l.map (fun kv => (kv.1, f kv.2))) =
        (dictSet k v l).map (fun kv => (kv.1, f kv.2)) := by
  intro l
  induction l with
  | nil => intro k v; simp [dictSet]
  | cons p rest ih =>
    intro k v
    obtain ⟨k', v'⟩ := p
    by_cases hk : k' = k <;> simp [dictSet, hk, ih]

theorem diskPlugins_map_aux (f : DirEntry → DirEntry) :
    ∀ (disk : Disk) (acc : List (String × DirEntry)),
      (∀ e ∈ disk, keyOf (f e) = keyOf e) →
      (disk.map f).foldl (fun a e => dictSet (keyOf e) e a)
          (acc.map (fun kv => (kv.1, f kv.2))) =
        (disk.foldl (fun a e => dictSet (keyOf e) e a) acc).map
          (fun kv => (kv.1, f kv.2)) := by
  intro disk
  induction disk with
  | nil => intro acc _; rfl
  | cons e rest ih =>
    intro acc hk
    simp only [List.map_cons, List.foldl_cons]
    rw [hk e (List.mem_cons_self _ _), dictSet_map_snd f acc (keyOf e) e,
        ih _ (fun e' he' => hk e' (List.mem_cons_of_mem _ he'))]

theorem diskPlugins_map (disk : Disk) (f : DirEntry → DirEntry)
    (hk : ∀ e ∈ disk, keyOf (f e) = keyOf e) :
    diskPlugins (disk.map f) =
      (diskPlugins disk).map (fun kv => (kv.1, f kv.2)) := by
  have := diskPlugins_map_aux f disk [] hk
  simpa [diskPlugins] using this

/-! ## Reconciler lemmas: the regenerated manifest -/

theorem mergeProxyTools_name (g : Manifest) (l : List ProxyDesc) :
    (mergeProxyTools g l).name = g.name := rfl

theorem mergeProxyTools_enabled (g : Manifest) (l : List ProxyDesc) :
    (mergeProxyTools g l).enabled = g.enabled := rfl

theorem mergedManifest_name (p : PluginDef) :
    (mergedManifest p).name = some p.declName := by
  unfold mergedManifest
  cases hg : p.getToolModules with
  | none => rfl
  | some res => cases res with
    | error e => rfl
    | ok l => rfl

theorem mergedManifest_enabled (p : PluginDef) :
    (mergedManifest p).enabled = some true := by
  unfold mergedManifest
  cases hg : p.getToolModules with
  | none => rfl
  | some res => cases res with
    | error e => rfl
    | ok l => rfl

theorem regenManifest_name (p : PluginDef) (x : Option Manifest) :
    (regenManifest p x).name = some p.declName := by
  unfold regenManifest carryEnabled
  cases x with
  | none => exact mergedManifest_name p
  | some m => exact mergedManifest_name p

theorem regenManifest_enabled (p : PluginDef) :
    ∀ (x : Option Manifest),
      (∀ m, x = some m → m.enabled.getD true = true) →
      (regenManifest p x).enabled = some true := by
  intro x hx
  unfold regenManifest carryEnabled
  cases x with
  | none => exact mergedManifest_enabled p
  | some m => simp [hx m rfl]

theorem regenManifest_fixpoint (p : PluginDef) (x : Option Manifest)
    (hx : ∀ m, x = some m → m.enabled.getD true = true) :
    regenManifest p (some (regenManifest p x)) = regenManifest p x := by
  have hen : (regenManifest p x).enabled = some true :=
    regenManifest_enabled p x hx
  have hlhs : regenManifest p (some (regenManifest p x)) =
      { mergedManifest p with
          enabled := some ((regenManifest p x).enabled.getD true) } := rfl
  rw [hen] at hlhs
  simp only [Option.getD_some] at hlhs
  rw [hlhs]
  cases x with
  | none =>
    show { mergedManifest p with enabled := some true } = mergedManifest p
    rw [← mergedManifest_enabled p]
  | some m =>
    show { mergedManifest p with enabled := some true } =
      { mergedManifest p with enabled := some (m.enabled.getD true) }
    rw [hx m rfl]

/-! ## Reconciler lemmas: the unload pass -/

theorem hasKey_eq_false_iff {α : Type} [DecidableEq α] {β : Type}
    (k : α) (l : List (α × β)) :
    hasKey k l = false ↔ alookup k l = none := by
  cases h : alookup k l <;> simp [hasKey, h]

theorem unload_plugin_hasKey_false (w : World) (st : PMState)
    (name : String) (u : Bool) (n : String)
    (h : hasKey n st.plugins = false) :
    hasKey n (unload_plugin w st name u).2.1.plugins = false := by
  cases hl : alookup name st.plugins with
  | none => simpa [unload_plugin, hl] using h
  | some r =>
    rw [hasKey_eq_false_iff] at h
    cases hs : alookup name st.eventSubs with
    | none =>
      simp [unload_plugin, hl, hs, hasKey_eq_false_iff,
        alookup_removeKey_none n name _ h]
    | some subs =>
      simp [unload_plugin, hl, hs, hasKey_eq_false_iff,
        alookup_removeKey_none n name _ h]

theorem unload_plugin_self_removed (w : World) (st : PMState)
    (name : String) (u : Bool) :
    hasKey name (unload_plugin w st name u).2.1.plugins = false := by
  cases hl : alookup name st.plugins with
  | none => simp [unload_plugin, hl, hasKey, hl]
  | some r =>
    cases hs : alookup name st.eventSubs with
    | none =>
      simp [unload_plugin, hl, hs, hasKey_eq_false_iff,
        alookup_removeKey_self]
    | some subs =>
      simp [unload_plugin, hl, hs, hasKey_eq_false_iff,
        alookup_removeKey_self]

theorem unloadPass_plugins_absent (dmap : List (String × DirEntry))
    (u : Bool) :
    ∀ (names : List String) (w : World) (st : PMState) (n : String),
      hasKey n st.plugins = false →
      hasKey n (unloadPass dmap u names w st).st.plugins = false := by
  intro names
  induction names with
  | nil => intro w st n h; exact h
  | cons name rest ih =>
    intro w st n h
    cases hd : alookup name dmap with
    | none => simpa [unloadPass, hd] using ih _ _ n h
    | some e =>
      cases he : enabledOf e with
      | true => simpa [unloadPass, hd, he] using ih _ _ n h
      | false =>
        simp only [unloadPass, hd, he, Bool.false_eq_true, if_false]
        exact ih _ _ n (unload_plugin_hasKey_false w st name u n h)

theorem unloadPass_disabled_removed (dmap : List (String × DirEntry))
    (u : Bool) :
    ∀ (names : List String) (w : World) (st : PMState) (k : String)
      (e : DirEntry),
      alookup k dmap = some e → enabledOf e = false →
      (hasKey k st.plugins = false ∨ k ∈ names) →
      hasKey k (unloadPass dmap u names w st).st.plugins = false := by
  intro names
  induction names with
  | nil =>
    intro w st k e _ _ h3
    rcases h3 with h3 | h3
    · exact h3
    · simp at h3
  | cons name rest ih =>
    intro w st k e hk he h3
    cases hd : alookup name dmap with
    | none =>
      simp only [unloadPass, hd]
      apply ih _ _ k e hk he
      rcases h3 with h3 | h3
      · exact Or.inl h3
      · rcases List.mem_cons.mp h3 with rfl | h3
        · rw [hk] at hd
          exact absurd hd (by simp)
        · exact Or.inr h3
    | some e' =>
      cases he' : enabledOf e' with
      | true =>
        simp only [unloadPass, hd, he', if_true]
        apply ih _ _ k e hk he
        rcases h3 with h3 | h3
        · exact Or.inl h3
        · rcases List.mem_cons.mp h3 with rfl | h3
          · rw [hk] at hd
            have : e' = e := by
              have := Option.some.inj hd
              rw [this]
            rw [this] at he'
            rw [he] at he'
            exact absurd he' (by simp)
          · exact Or.inr h3
      | false =>
        simp only [unloadPass, hd, he', Bool.false_eq_true, if_false]
        apply ih _ _ k e hk he
        rcases h3 with h3 | h3
        · exact Or.inl (unload_plugin_hasKey_false w st name u k h3)
        · rcases List.mem_cons.mp h3 with rfl | h3
          · exact Or.inl (unload_plugin_self_removed w st k u)
          · exact Or.inr h3

theorem unloadPass_noop (dmap : List (String × DirEntry)) (u : Bool) :
    ∀ (names : List String) (w : World) (st : PMState),
      (∀ name ∈ names, ∀ e, alookup name dmap = some e →
        enabledOf e = true) →
      unloadPass dmap u names w st = { w := w, st := st, unloaded := [] } := by
  intro names
  induction names with
  | nil => intro w st _; rfl
  | cons name rest ih =>
    intro w st h
    have hrest := fun n hn e he =>
      h n (List.mem_cons_of_mem _ hn) e he
    cases hd : alookup name dmap with
    | none => simpa [unloadPass, hd] using ih w st hrest
    | some e =>
      have he : enabledOf e = true := h name (List.mem_cons_self _ _) e hd
      simpa [unloadPass, hd, he] using ih w st hrest

/-! ## Reconciler lemmas: the load pass on stable entries -/

theorem load_plugin_skip_none (w : World) (st : PMState) (e : DirEntry)
    (hp : e.pdef = none) :
    load_plugin w st e = (w, st, e, LoadResult.ok none) := by
  simp [load_plugin, hp]

theorem load_plugin_inert (w : World) (st : PMState) (e : DirEntry)
    (p : PluginDef) (hp : e.pdef = some p) (hen : enabledOf e = true)
    (hraise : p.onLoadRaises = true)
    (hfix : e.manifest = some (regenManifest p e.manifest))
    (hsubs : p.eventMethods = [] ∨
      alookup p.declName st.eventSubs = some p.eventMethods) :
    load_plugin w st e =
      ((if p.eventMethods.isEmpty then w
        else { w with bus := w.bus ++ p.eventMethods }),
       st, e, LoadResult.raised) := by
  have h1 : (if p.eventMethods.isEmpty then st
      else { st with
        eventSubs := dictSet p.declName p.eventMethods st.eventSubs }) =
      st := by
    cases hem : p.eventMethods.isEmpty with
    | true => rfl
    | false =>
      rcases hsubs with h | h
      · rw [h] at hem
        simp at hem
      · rw [if_neg (by simp [hem]), dictSet_of_alookup_eq _ _ _ h]
  have h2 : ({ e with manifest := some (regenManifest p e.manifest) } :
      DirEntry) = e := by
    have : some (regenManifest p e.manifest) = e.manifest := hfix.symm
    rw [this]
  obtain ⟨m, hm⟩ : ∃ m, e.manifest = some m := ⟨_, hfix⟩
  have hmen : m.enabled.getD true = true := by
    simp only [enabledOf, hm] at hen
    exact hen
  simp only [load_plugin, hp, hm, hmen, if_true]
  simp only [loadProceed, hraise, if_true, h1, h2]

theorem loadPass_noop (u : Bool) (names : List String) :
    ∀ (dlist : List (String × DirEntry)) (w : World) (st : PMState)
      (disk : Disk),
      (∀ kv ∈ dlist, StableEntry st kv.1 kv.2) →
      (∀ kv ∈ dlist, kv.2 ∈ disk) →
      (disk.map (fun d => d.dirName)).Nodup →
      (loadPass u names dlist w st disk).st = st ∧
      (loadPass u names dlist w st disk).disk = disk ∧
      (loadPass u names dlist w st disk).loaded = [] := by
  intro dlist
  induction dlist with
  | nil => intro w st disk _ _ _; exact ⟨rfl, rfl, rfl⟩
  | cons kv rest ih =>
    obtain ⟨name, e⟩ := kv
    intro w st disk hst hmem hnod
    have hse := hst (name, e) (List.mem_cons_self _ _)
    have he := hmem (name, e) (List.mem_cons_self _ _)
    have hst' := fun kv h => hst kv (List.mem_cons_of_mem _ h)
    have hmem' := fun kv h => hmem kv (List.mem_cons_of_mem _ h)
    cases hen : enabledOf e with
    | false =>
      simp only [loadPass, hen, Bool.false_and, Bool.false_eq_true, if_false]
      exact ih w st disk hst' hmem' hnod
    | true =>
      cases hkey : hasKey name st.plugins with
      | true =>
        simp only [loadPass, hen, hkey, Bool.not_true, Bool.and_false,
          Bool.false_eq_true, if_false]
        exact ih w st disk hst' hmem' hnod
      | false =>
        have hinert : InertEntry st e := by
          rcases hse.2 hen with h | h
          · rw [hkey] at h
            exact absurd h (by simp)
          · exact h
        have hfind := find?_dirName_self disk e he hnod
        cases hp : e.pdef with
        | none =>
          simp only [loadPass, hen, hkey, Bool.not_false, Bool.and_true,
            if_true, hfind, load_plugin_skip_none w st e hp,
            updateDirManifest_self disk e he hnod]
          exact ih w st disk hst' hmem' hnod
        | some p =>
          simp only [InertEntry, hp] at hinert
          obtain ⟨hraise, hfix, hsubs⟩ := hinert
          have hL := load_plugin_inert w st e p hp hen hraise hfix hsubs
          simp only [loadPass, hen, hkey, Bool.not_false, Bool.and_true,
            if_true, hfind, hL, updateDirManifest_self disk e he hnod]
          exact ih _ st disk hst' hmem' hnod

theorem reload_noop_of_stable (w : World) (st : PMState) (disk : Disk)
    (u : Bool) (names : List String)
    (hnod : (disk.map (fun d => d.dirName)).Nodup)
    (hstable : ∀ kv ∈ diskPlugins disk, StableEntry st kv.1 kv.2) :
    (reload_plugins w st disk u names).st = st ∧
    (reload_plugins w st disk u names).disk = disk ∧
    (reload_plugins w st disk u names).loaded = [] ∧
    (reload_plugins w st disk u names).unloaded = [] := by
  have hun : unloadPass (diskPlugins disk) u (st.plugins.map Prod.fst) w st =
      { w := w, st := st, unloaded := [] } := by
    apply unloadPass_noop
    intro n hn e he
    cases hval : enabledOf e with
    | true => rfl
    | false =>
      exfalso
      have hmem : (n, e) ∈ diskPlugins disk := alookup_mem _ n e he
      have hdis := (hstable (n, e) hmem).1 hval
      rw [hasKey] at hdis
      rw [mem_keys_alookup_isSome st.plugins n hn] at hdis
      exact absurd hdis (by simp)
  have hld := loadPass_noop u names (diskPlugins disk) w st disk
    hstable (fun kv h => (diskPlugins_sound disk kv h).1) hnod
  refine ⟨?_, ?_, ?_, ?_⟩ <;>
    simp [reload_plugins, hun, hld.1, hld.2.1, hld.2.2]

/-! ## Reconciler lemmas: one reconcile pass reaches a stable state -/

theorem enabledOf_gate (e : DirEntry) (hen : enabledOf e = true) :
    ∀ m, e.manifest = some m → m.enabled.getD true = true := by
  intro m hm
  simpa [enabledOf, hm] using hen

theorem keyOf_of_consistent (e : DirEntry) (p : PluginDef)
    (hp : e.pdef = some p) (hc : entryNameConsistent e = true) :
    keyOf e = p.declName := by
  unfold entryNameConsistent at hc
  rw [hp] at hc
  cases hm : e.manifest with
  | none =>
    rw [hm] at hc
    simpa [keyOf, hm] using hc
  | some m =>
    rw [hm] at hc
    have : m.name = some p.declName := by simpa using hc
    simp [keyOf, hm, this]

theorem entryNameConsistent_update (e : DirEntry) (p : PluginDef)
    (hp : e.pdef = some p) :
    entryNameConsistent
      { e with manifest := some (regenManifest p e.manifest) } = true := by
  simp [entryNameConsistent, hp, regenManifest_name]

theorem enabledOf_update (e : DirEntry) (p : PluginDef)
    (hen : enabledOf e = true) :
    enabledOf { e with manifest := some (regenManifest p e.manifest) } =
      true := by
  simp [enabledOf, regenManifest_enabled p e.manifest (enabledOf_gate e hen)]

theorem load_plugin_raised (w : World) (st : PMState) (e : DirEntry)
    (p : PluginDef) (hp : e.pdef = some p) (hen : enabledOf e = true)
    (hraise : p.onLoadRaises = true) :
    load_plugin w st e =
      ((if p.eventMethods.isEmpty then w
        else { w with bus := w.bus ++ p.eventMethods }),
       (if p.eventMethods.isEmpty then st
        else { st with
          eventSubs := dictSet p.declName p.eventMethods st.eventSubs }),
       { e with manifest := some (regenManifest p e.manifest) },
       LoadResult.raised) := by
  cases hm : e.manifest with
  | none =>
    simp only [load_plugin, hp, hm]
    rw [← hm]
    simp only [loadProceed, hraise, if_true]
    rw [hp]
  | some m =>
    have hmen : m.enabled.getD true = true := enabledOf_gate e hen m hm
    simp only [load_plugin, hp, hm, hmen, if_true]
    simp only [loadProceed, hraise, if_true]
    rw [← hm, hp]

theorem load_plugin_ok (w : World) (st : PMState) (e : DirEntry)
    (p : PluginDef) (hp : e.pdef = some p) (hen : enabledOf e = true)
    (hraise : p.onLoadRaises = false) :
    load_plugin w st e =
      ((if p.eventMethods.isEmpty then w
        else { w with bus := w.bus ++ p.eventMethods }),
       { plugins := dictSet p.declName
           { pdef := p, metadata := regenManifest p e.manifest,
             dirName := e.dirName } st.plugins,
         eventSubs :=
           if p.eventMethods.isEmpty then st.eventSubs
           else dictSet p.declName p.eventMethods st.eventSubs,
         hookChainCache := st.hookChainCache },
       { e with manifest := some (regenManifest p e.manifest) },
       LoadResult.ok (some p.declName)) := by
  have hbody : loadProceed w st e p =
      ((if p.eventMethods.isEmpty then w
        else { w with bus := w.bus ++ p.eventMethods }),
       { plugins := dictSet p.declName
           { pdef := p, metadata := regenManifest p e.manifest,
             dirName := e.dirName } st.plugins,
         eventSubs :=
           if p.eventMethods.isEmpty then st.eventSubs
           else dictSet p.declName p.eventMethods st.eventSubs,
         hookChainCache := st.hookChainCache },
       { e with manifest := some (regenManifest p e.manifest) },
       LoadResult.ok (some p.declName)) := by
    cases hem : p.eventMethods.isEmpty <;>
      simp [loadProceed, hraise, hem]
  cases hm : e.manifest with
  | none =>
    simp only [load_plugin, hp, hm]
    rw [← hm, hbody, hp]
  | some m =>
    have hmen : m.enabled.getD true = true := enabledOf_gate e hen m hm
    simp only [load_plugin, hp, hm, hmen, if_true]
    rw [← hm, hbody, hp]

theorem hasKey_dictSet_self {α : Type} [DecidableEq α] {β : Type}
    (k : α) (v : β) (l : List (α × β)) :
    hasKey k (dictSet k v l) = true := by
  simp [hasKey, alookup_dictSet_self]

theorem hasKey_dictSet_ne {α : Type} [DecidableEq α] {β : Type}
    (k n : α) (v : β) (l : List (α × β)) (hne : n ≠ k) :
    hasKey n (dictSet k v l) = hasKey n l := by
  simp [hasKey, alookup_dictSet_ne k n v l hne]

theorem setManifest_of_ne (dn : String) (m : Option Manifest)
    (d : DirEntry) (h : d.dirName ≠ dn) : setManifest dn m d = d := by
  simp [setManifest, h]

theorem setManifest_self (dn : String) (m : Option Manifest)
    (d : DirEntry) (h : d.dirName = dn) :
    setManifest dn m d = { d with manifest := m } := by
  simp [setManifest, h]

theorem isEmpty_false_of_ne_nil {α : Type} {l : List α} (h : l ≠ []) :
    l.isEmpty = false := by
  cases l with
  | nil => exact absurd rfl h
  | cons a as => rfl

theorem setManifest_dirName (dn : String) (m : Option Manifest)
    (d : DirEntry) : (setManifest dn m d).dirName = d.dirName := by
  unfold setManifest
  split <;> rfl

theorem setManifest_pdef (dn : String) (m : Option Manifest)
    (d : DirEntry) : (setManifest dn m d).pdef = d.pdef := by
  unfold setManifest
  split <;> rfl

theorem loadPass_establishes (u : Bool) (names : List String) :
    ∀ (dlist : List (String × DirEntry)) (w : World) (st : PMState)
      (disk : Disk),
      (∀ kv ∈ dlist, kv.2 ∈ disk ∧ keyOf kv.2 = kv.1) →
      (dlist.map Prod.fst).Nodup →
      (∀ kv₁ ∈ dlist, ∀ kv₂ ∈ dlist, kv₁ ≠ kv₂ →
        kv₁.2.dirName ≠ kv₂.2.dirName) →
      (disk.map (fun d => d.dirName)).Nodup →
      NameConsistent disk →
      (∀ kv ∈ dlist, enabledOf kv.2 = false →
        hasKey kv.1 st.plugins = false) →
      ∃ f : DirEntry → DirEntry,
        (loadPass u names dlist w st disk).disk = disk.map f ∧
        (∀ e ∈ disk, keyOf (f e) = keyOf e ∧ (f e).dirName = e.dirName ∧
          (f e).pdef = e.pdef ∧
          (entryNameConsistent e = true →
            entryNameConsistent (f e) = true)) ∧
        (∀ e ∈ disk, (∀ kv ∈ dlist, kv.2.dirName ≠ e.dirName) → f e = e) ∧
        (∀ kv ∈ dlist,
          StableEntry (loadPass u names dlist w st disk).st kv.1
            (f kv.2)) ∧
        (∀ n, hasKey n st.plugins = true →
          hasKey n (loadPass u names dlist w st disk).st.plugins = true) ∧
        (∀ n, hasKey n st.plugins = false → n ∉ dlist.map Prod.fst →
          hasKey n (loadPass u names dlist w st disk).st.plugins = false) ∧
        (∀ n v, alookup n st.eventSubs = some v → n ∉ dlist.map Prod.fst →
          alookup n (loadPass u names dlist w st disk).st.eventSubs =
            some v) := by
  intro dlist
  induction dlist with
  | nil =>
    intro w st disk _ _ _ _ _ _
    refine ⟨id, by simp [loadPass], ?_, ?_, ?_, ?_, ?_, ?_⟩
    · exact fun e _ => ⟨rfl, rfl, rfl, fun h => h⟩
    · exact fun e _ _ => rfl
    · intro kv h; simp at h
    · exact fun n h => h
    · exact fun n h _ => h
    · exact fun n v h _ => h
  | cons kv rest ih =>
    obtain ⟨name, e⟩ := kv
    intro w st disk hcur hnodk hdirs hnodd hNC hdis
    obtain ⟨hmem_e, hkey_e⟩ := hcur (name, e) (List.mem_cons_self _ _)
    have hcur' := fun kv h => hcur kv (List.mem_cons_of_mem _ h)
    have hkpair : name ∉ rest.map Prod.fst ∧ (rest.map Prod.fst).Nodup := by
      simpa [List.nodup_cons] using hnodk
    have hnodk' : (rest.map Prod.fst).Nodup := hkpair.2
    have hname_not : name ∉ rest.map Prod.fst := hkpair.1
    have hdirs' := fun kv1 h1 kv2 h2 hne =>
      hdirs kv1 (List.mem_cons_of_mem _ h1) kv2 (List.mem_cons_of_mem _ h2)
        hne
    have hdis' := fun kv h => hdis kv (List.mem_cons_of_mem _ h)
    have hhead_ne_rest : ∀ kv ∈ rest, kv.2.dirName ≠ e.dirName := by
      intro kv h
      have hne : kv ≠ (name, e) := by
        intro hEq
        apply hname_not
        have hm1 : kv.1 ∈ rest.map Prod.fst := List.mem_map_of_mem Prod.fst h
        rw [hEq] at hm1
        exact hm1
      exact hdirs kv (List.mem_cons_of_mem _ h) (name, e)
        (List.mem_cons_self _ _) hne
    cases hen : enabledOf e with
    | false =>
      have hred : loadPass u names ((name, e) :: rest) w st disk =
          loadPass u names rest w st disk := by
        simp [loadPass, hen]
      rw [hred]
      obtain ⟨f, hdisk, hpres, hfix, hstab, hmono, habs, hsubs⟩ :=
        ih w st disk hcur' hnodk' hdirs' hnodd hNC hdis'
      refine ⟨f, hdisk, hpres, ?_, ?_, hmono, ?_, ?_⟩
      · exact fun e' he' h =>
          hfix e' he' (fun kv hk => h kv (List.mem_cons_of_mem _ hk))
      · intro kv hkv
        rcases List.mem_cons.mp hkv with hEq | hkv'
        · subst hEq
          have hfe : f e = e := hfix e hmem_e hhead_ne_rest
          constructor
          · intro _
            exact habs name (hdis (name, e) (List.mem_cons_self _ _) hen)
              hname_not
          · intro het
            rw [hfe, hen] at het
            exact absurd het (by simp)
        · exact hstab kv hkv'
      · intro n h hn
        exact habs n h (fun hm => hn (by simpa using Or.inr hm))
      · intro n v h hn
        exact hsubs n v h (fun hm => hn (by simpa using Or.inr hm))
    | true =>
      cases hkey : hasKey name st.plugins with
      | true =>
        have hred : loadPass u names ((name, e) :: rest) w st disk =
            loadPass u names rest w st disk := by
          simp [loadPass, hen, hkey]
        rw [hred]
        obtain ⟨f, hdisk, hpres, hfix, hstab, hmono, habs, hsubs⟩ :=
          ih w st disk hcur' hnodk' hdirs' hnodd hNC hdis'
        refine ⟨f, hdisk, hpres, ?_, ?_, hmono, ?_, ?_⟩
        · exact fun e' he' h =>
            hfix e' he' (fun kv hk => h kv (List.mem_cons_of_mem _ hk))
        · intro kv hkv
          rcases List.mem_cons.mp hkv with hEq | hkv'
          · subst hEq
            have hfe : f e = e := hfix e hmem_e hhead_ne_rest
            constructor
            · intro hef
              rw [hfe, hen] at hef
              exact absurd hef (by simp)
            · intro _
              exact Or.inl (hmono name hkey)
          · exact hstab kv hkv'
        · intro n h hn
          exact habs n h (fun hm => hn (by simpa using Or.inr hm))
        · intro n v h hn
          exact hsubs n v h (fun hm => hn (by simpa using Or.inr hm))
      | false =>
        have hfind := find?_dirName_self disk e hmem_e hnodd
        cases hp : e.pdef with
        | none =>
          have hred : loadPass u names ((name, e) :: rest) w st disk =
              loadPass u names rest w st disk := by
            simp [loadPass, hen, hkey, hfind,
              load_plugin_skip_none w st e hp,
              updateDirManifest_self disk e hmem_e hnodd]
          rw [hred]
          obtain ⟨f, hdisk, hpres, hfix, hstab, hmono, habs, hsubs⟩ :=
            ih w st disk hcur' hnodk' hdirs' hnodd hNC hdis'
          refine ⟨f, hdisk, hpres, ?_, ?_, hmono, ?_, ?_⟩
          · exact fun e' he' h =>
              hfix e' he' (fun kv hk => h kv (List.mem_cons_of_mem _ hk))
          · intro kv hkv
            rcases List.mem_cons.mp hkv with hEq | hkv'
            · subst hEq
              have hfe : f e = e := hfix e hmem_e hhead_ne_rest
              constructor
              · intro hef
                rw [hfe, hen] at hef
                exact absurd hef (by simp)
              · intro _
                refine Or.inr ?_
                rw [hfe]
                simp [InertEntry, hp]
            · exact hstab kv hkv'
          · intro n h hn
            exact habs n h (fun hm => hn (by simpa using Or.inr hm))
          · intro n v h hn
            exact hsubs n v h (fun hm => hn (by simpa using Or.inr hm))
        | some p =>
          have hinj := List.inj_on_of_nodup_map hnodd
          have hcons : entryNameConsistent e = true := hNC e hmem_e
          have hkd : p.declName = name := by
            rw [← keyOf_of_consistent e p hp hcons, hkey_e]
          have hkg : ∀ d ∈ disk,
              keyOf (setManifest e.dirName
                (some (regenManifest p e.manifest)) d) = keyOf d := by
            intro d hd
            by_cases hdd : d.dirName = e.dirName
            · have hde : d = e := hinj hd hmem_e hdd
              subst hde
              rw [setManifest_self _ _ _ rfl]
              show (regenManifest p d.manifest).name.getD d.dirName = keyOf d
              rw [regenManifest_name, keyOf_of_consistent d p hp hcons]
              rfl
            · rw [setManifest_of_ne _ _ _ hdd]
          have hdisk'nodup :
              ((updateDirManifest disk e.dirName
                (some (regenManifest p e.manifest))).map
                  (fun d => d.dirName)).Nodup := by
            rw [updateDirManifest_dirNames]
            exact hnodd
          have hNC' : NameConsistent (updateDirManifest disk e.dirName
              (some (regenManifest p e.manifest))) := by
            intro e' he'
            unfold updateDirManifest at he'
            obtain ⟨d, hd, rfl⟩ := List.mem_map.mp he'
            by_cases hdd : d.dirName = e.dirName
            · have hde : d = e := hinj hd hmem_e hdd
              subst hde
              rw [setManifest_self _ _ _ rfl]
              exact entryNameConsistent_update d p hp
            · rw [setManifest_of_ne _ _ _ hdd]
              exact hNC d hd
          have hcur'' : ∀ kv ∈ rest,
              kv.2 ∈ updateDirManifest disk e.dirName
                (some (regenManifest p e.manifest)) ∧
              keyOf kv.2 = kv.1 := by
            intro kv h
            exact ⟨mem_updateDirManifest_other disk _ _ kv.2
              (hcur' kv h).1 (hhead_ne_rest kv h), (hcur' kv h).2⟩
          have he1mem :
              ({ e with manifest := some (regenManifest p e.manifest) } :
                DirEntry) ∈ updateDirManifest disk e.dirName
                  (some (regenManifest p e.manifest)) := by
            rw [← setManifest_self e.dirName
              (some (regenManifest p e.manifest)) e rfl]
            exact List.mem_map_of_mem _ hmem_e
          cases hraise : p.onLoadRaises with
          | true =>
            have hL := load_plugin_raised w st e p hp hen hraise
            have hred : loadPass u names ((name, e) :: rest) w st disk =
                loadPass u names rest
                  (if p.eventMethods.isEmpty then w
                   else { w with bus := w.bus ++ p.eventMethods })
                  (if p.eventMethods.isEmpty then st
                   else { st with eventSubs := dictSet p.declName p.eventMethods st.eventSubs })
                  (updateDirManifest disk e.dirName
                    (some (regenManifest p e.manifest))) := by
              simp [loadPass, hen, hkey, hfind, hL]
            rw [hred]
            have hplug : (if p.eventMethods.isEmpty then st
                else { st with eventSubs := dictSet p.declName p.eventMethods st.eventSubs }).plugins =
                st.plugins := by
              cases p.eventMethods.isEmpty <;> rfl
            have hdis'' : ∀ kv ∈ rest, enabledOf kv.2 = false →
                hasKey kv.1 (if p.eventMethods.isEmpty then st
                  else { st with eventSubs := dictSet p.declName p.eventMethods st.eventSubs }).plugins = false := by
              intro kv h hf
              rw [hplug]
              exact hdis' kv h hf
            obtain ⟨f, hdisk, hpres, hfix, hstab, hmono, habs, hsubs⟩ :=
              ih _ _ _ hcur'' hnodk' hdirs' hdisk'nodup hNC' hdis''
            refine ⟨fun d => f (setManifest e.dirName
              (some (regenManifest p e.manifest)) d), ?_, ?_, ?_, ?_, ?_,
              ?_, ?_⟩
            · rw [hdisk]
              unfold updateDirManifest
              rw [List.map_map]
              rfl
            · intro d hd
              have hgcons : entryNameConsistent d = true →
                  entryNameConsistent (setManifest e.dirName
                    (some (regenManifest p e.manifest)) d) = true := by
                intro hc
                by_cases hdd : d.dirName = e.dirName
                · have hde : d = e := hinj hd hmem_e hdd
                  subst hde
                  rw [setManifest_self _ _ _ rfl]
                  exact entryNameConsistent_update d p hp
                · rw [setManifest_of_ne _ _ _ hdd]
                  exact hc
              obtain ⟨k1, k2, k3, k4⟩ :=
                hpres _ (List.mem_map_of_mem _ hd)
              exact ⟨k1.trans (hkg d hd),
                k2.trans (setManifest_dirName _ _ _),
                k3.trans (setManifest_pdef _ _ _),
                fun hc => k4 (hgcons hc)⟩
            · intro d hd h
              have hdne : d.dirName ≠ e.dirName := by
                intro hc
                exact h (name, e) (List.mem_cons_self _ _) hc.symm
              show f (setManifest e.dirName
                (some (regenManifest p e.manifest)) d) = d
              rw [setManifest_of_ne _ _ _ hdne]
              exact hfix d
                (mem_updateDirManifest_other disk _ _ d hd hdne)
                (fun kv hk => h kv (List.mem_cons_of_mem _ hk))
            · intro kv hkv
              rcases List.mem_cons.mp hkv with hEq | hkv'
              · subst hEq
                have hfe1 : f { e with
                    manifest := some (regenManifest p e.manifest) } =
                    { e with
                      manifest := some (regenManifest p e.manifest) } :=
                  hfix _ he1mem (fun kv hk => hhead_ne_rest kv hk)
                show StableEntry _ name
                  (f (setManifest e.dirName
                    (some (regenManifest p e.manifest)) e))
                rw [setManifest_self _ _ _ rfl, hfe1]
                constructor
                · intro hef
                  rw [enabledOf_update e p hen] at hef
                  exact absurd hef (by simp)
                · intro _
                  refine Or.inr ?_
                  show InertEntry _
                    { e with manifest := some (regenManifest p e.manifest) }
                  simp only [InertEntry, hp]
                  refine ⟨hraise, ?_, ?_⟩
                  · show some (regenManifest p e.manifest) =
                      some (regenManifest p (some (regenManifest p
                        e.manifest)))
                    rw [regenManifest_fixpoint p e.manifest
                      (enabledOf_gate e hen)]
                  · rcases eq_or_ne p.eventMethods [] with hnil | hnil
                    · exact Or.inl hnil
                    · refine Or.inr (hsubs p.declName p.eventMethods ?_ ?_)
                      · have hEq2 : (if p.eventMethods.isEmpty then st
                            else { st with eventSubs := dictSet p.declName p.eventMethods st.eventSubs }).eventSubs =
                            dictSet p.declName p.eventMethods st.eventSubs := by
                          rw [if_neg (by simp [isEmpty_false_of_ne_nil hnil])]
                        rw [hEq2]
                        exact alookup_dictSet_self _ _ _
                      · rw [hkd]
                        exact hname_not
              · have hg_kv : setManifest e.dirName
                    (some (regenManifest p e.manifest)) kv.2 = kv.2 :=
                  setManifest_of_ne _ _ _ (hhead_ne_rest kv hkv')
                show StableEntry _ kv.1
                  (f (setManifest e.dirName
                    (some (regenManifest p e.manifest)) kv.2))
                rw [hg_kv]
                exact hstab kv hkv'
            · intro n h
              apply hmono
              rw [hplug]
              exact h
            · intro n h hn
              refine habs n ?_ (fun hm => hn (by simpa using Or.inr hm))
              rw [hplug]
              exact h
            · intro n v h hn
              have hnn : n ≠ name := fun hEq => hn (by simpa using Or.inl hEq)
              refine hsubs n v ?_ (fun hm => hn (by simpa using Or.inr hm))
              rcases eq_or_ne p.eventMethods [] with hnil | hnil
              · simpa [hnil] using h
              · have hEq2 : (if p.eventMethods.isEmpty then st
                    else { st with eventSubs := dictSet p.declName p.eventMethods st.eventSubs }).eventSubs =
                    dictSet p.declName p.eventMethods st.eventSubs := by
                  rw [if_neg (by simp [isEmpty_false_of_ne_nil hnil])]
                rw [hEq2, alookup_dictSet_ne _ _ _ _ (hkd ▸ hnn)]
                exact h
          | false =>
            have hL := load_plugin_ok w st e p hp hen hraise
            have hRED : ∃ W,
                (loadPass u names ((name, e) :: rest) w st disk).st =
                  (loadPass u names rest W
                    { plugins := dictSet p.declName
                        { pdef := p,
                          metadata := regenManifest p e.manifest,
                          dirName := e.dirName } st.plugins,
                      eventSubs :=
                        if p.eventMethods.isEmpty then st.eventSubs
                        else dictSet p.declName p.eventMethods st.eventSubs,
                      hookChainCache := st.hookChainCache }
                    (updateDirManifest disk e.dirName
                      (some (regenManifest p e.manifest)))).st ∧
                (loadPass u names ((name, e) :: rest) w st disk).disk =
                  (loadPass u names rest W
                    { plugins := dictSet p.declName
                        { pdef := p,
                          metadata := regenManifest p e.manifest,
                          dirName := e.dirName } st.plugins,
                      eventSubs :=
                        if p.eventMethods.isEmpty then st.eventSubs
                        else dictSet p.declName p.eventMethods st.eventSubs,
                      hookChainCache := st.hookChainCache }
                    (updateDirManifest disk e.dirName
                      (some (regenManifest p e.manifest)))).disk := by
              have hpick : ∀ (c : Bool) (t : LoadAcc) (ln : String),
                  (if c = true then t
                   else { t with loaded := ln :: t.loaded }).st = t.st ∧
                  (if c = true then t
                   else { t with loaded := ln :: t.loaded }).disk = t.disk := by
                intro c t ln
                cases c <;> exact ⟨rfl, rfl⟩
              simp only [loadPass, hen, hkey, Bool.not_false, Bool.and_true,
                if_true, hfind, hL]
              exact ⟨_, (hpick _ _ _).1, (hpick _ _ _).2⟩
            obtain ⟨W, hstR, hdiskR⟩ := hRED
            rw [hstR, hdiskR]
            have hdis'' : ∀ kv ∈ rest, enabledOf kv.2 = false →
                hasKey kv.1 (dictSet p.declName
                  { pdef := p, metadata := regenManifest p e.manifest,
                    dirName := e.dirName } st.plugins) = false := by
              intro kv h hf
              have hne : kv.1 ≠ p.declName := by
                rw [hkd]
                intro hc
                apply hname_not
                rw [← hc]
                exact List.mem_map_of_mem Prod.fst h
              rw [hasKey_dictSet_ne _ _ _ _ hne]
              exact hdis' kv h hf
            obtain ⟨f, hdisk, hpres, hfix, hstab, hmono, habs, hsubs⟩ :=
              ih W
                { plugins := dictSet p.declName
                    { pdef := p, metadata := regenManifest p e.manifest,
                      dirName := e.dirName } st.plugins,
                  eventSubs :=
                    if p.eventMethods.isEmpty then st.eventSubs
                    else dictSet p.declName p.eventMethods st.eventSubs,
                  hookChainCache := st.hookChainCache }
                (updateDirManifest disk e.dirName
                  (some (regenManifest p e.manifest)))
                hcur'' hnodk' hdirs' hdisk'nodup hNC' hdis''
            refine ⟨fun d => f (setManifest e.dirName
              (some (regenManifest p e.manifest)) d), ?_, ?_, ?_, ?_, ?_,
              ?_, ?_⟩
            · rw [hdisk]
              unfold updateDirManifest
              rw [List.map_map]
              rfl
            · intro d hd
              have hgcons : entryNameConsistent d = true →
                  entryNameConsistent (setManifest e.dirName
                    (some (regenManifest p e.manifest)) d) = true := by
                intro hc
                by_cases hdd : d.dirName = e.dirName
                · have hde : d = e := hinj hd hmem_e hdd
                  subst hde
                  rw [setManifest_self _ _ _ rfl]
                  exact entryNameConsistent_update d p hp
                · rw [setManifest_of_ne _ _ _ hdd]
                  exact hc
              obtain ⟨k1, k2, k3, k4⟩ :=
                hpres _ (List.mem_map_of_mem _ hd)
              exact ⟨k1.trans (hkg d hd),
                k2.trans (setManifest_dirName _ _ _),
                k3.trans (setManifest_pdef _ _ _),
                fun hc => k4 (hgcons hc)⟩
            · intro d hd h
              have hdne : d.dirName ≠ e.dirName := by
                intro hc
                exact h (name, e) (List.mem_cons_self _ _) hc.symm
              show f (setManifest e.dirName
                (some (regenManifest p e.manifest)) d) = d
              rw [setManifest_of_ne _ _ _ hdne]
              exact hfix d
                (mem_updateDirManifest_other disk _ _ d hd hdne)
                (fun kv hk => h kv (List.mem_cons_of_mem _ hk))
            · intro kv hkv
              rcases List.mem_cons.mp hkv with hEq | hkv'
              · subst hEq
                have hfe1 : f { e with
                    manifest := some (regenManifest p e.manifest) } =
                    { e with
                      manifest := some (regenManifest p e.manifest) } :=
                  hfix _ he1mem (fun kv hk => hhead_ne_rest kv hk)
                show StableEntry _ name
                  (f (setManifest e.dirName
                    (some (regenManifest p e.manifest)) e))
                rw [setManifest_self _ _ _ rfl, hfe1]
                constructor
                · intro hef
                  rw [enabledOf_update e p hen] at hef
                  exact absurd hef (by simp)
                · intro _
                  refine Or.inl (hmono name ?_)
                  show hasKey name (dictSet p.declName
                    { pdef := p, metadata := regenManifest p e.manifest,
                      dirName := e.dirName } st.plugins) = true
                  rw [hkd]
                  exact hasKey_dictSet_self _ _ _
              · have hg_kv : setManifest e.dirName
                    (some (regenManifest p e.manifest)) kv.2 = kv.2 :=
                  setManifest_of_ne _ _ _ (hhead_ne_rest kv hkv')
                show StableEntry _ kv.1
                  (f (setManifest e.dirName
                    (some (regenManifest p e.manifest)) kv.2))
                rw [hg_kv]
                exact hstab kv hkv'
            · intro n h
              apply hmono
              show hasKey n (dictSet p.declName
                { pdef := p, metadata := regenManifest p e.manifest,
                  dirName := e.dirName } st.plugins) = true
              by_cases hnd : n = p.declName
              · subst hnd
                exact hasKey_dictSet_self _ _ _
              · rw [hasKey_dictSet_ne _ _ _ _ hnd]
                exact h
            · intro n h hn
              have hnn : n ≠ name := fun hEq => hn (by simpa using Or.inl hEq)
              refine habs n ?_ (fun hm => hn (by simpa using Or.inr hm))
              show hasKey n (dictSet p.declName
                { pdef := p, metadata := regenManifest p e.manifest,
                  dirName := e.dirName } st.plugins) = false
              rw [hasKey_dictSet_ne _ _ _ _ (hkd ▸ hnn)]
              exact h
            · intro n v h hn
              have hnn : n ≠ name := fun hEq => hn (by simpa using Or.inl hEq)
              refine hsubs n v ?_ (fun hm => hn (by simpa using Or.inr hm))
              show alookup n (if p.eventMethods.isEmpty then st.eventSubs
                else dictSet p.declName p.eventMethods st.eventSubs) = some v
              cases hem : p.eventMethods.isEmpty with
              | true => simpa [hem] using h
              | false =>
                rw [if_neg (by simp [hem])]
                rw [alookup_dictSet_ne _ _ _ _ (hkd ▸ hnn)]
                exact h

theorem InertEntry_congr {st st' : PMState}
    (h : st'.eventSubs = st.eventSubs) {e : DirEntry}
    (hi : InertEntry st e) : InertEntry st' e := by
  cases hpd : e.pdef with
  | none => simp [InertEntry, hpd]
  | some p =>
    simp only [InertEntry, hpd] at hi ⊢
    refine ⟨hi.1, hi.2.1, ?_⟩
    rcases hi.2.2 with hh | hh
    · exact Or.inl hh
    · exact Or.inr (by rw [h]; exact hh)

theorem StableEntry_congr {st st' : PMState} (hp : st'.plugins = st.plugins)
    (hs : st'.eventSubs = st.eventSubs) {k : String} {e : DirEntry}
    (h : StableEntry st k e) : StableEntry st' k e := by
  constructor
  · intro hd
    rw [hp]
    exact h.1 hd
  · intro ht
    rcases h.2 ht with h' | h'
    · exact Or.inl (by rw [hp]; exact h')
    · exact Or.inr (InertEntry_congr hs h')

theorem reload_establishes_stable (w : World) (st : PMState) (disk : Disk)
    (u : Bool) (names : List String)
    (hnod : (disk.map (fun d => d.dirName)).Nodup)
    (hNC : NameConsistent disk) :
    ((reload_plugins w st disk u names).disk.map
      (fun d => d.dirName)).Nodup ∧
    NameConsistent (reload_plugins w st disk u names).disk ∧
    ∀ kv ∈ diskPlugins (reload_plugins w st disk u names).disk,
      StableEntry (reload_plugins w st disk u names).st kv.1 kv.2 := by
  have hdm_sound := diskPlugins_sound disk
  have hdm_nodup := diskPlugins_keys_nodup disk
  have hinj := List.inj_on_of_nodup_map hnod
  have hdirs : ∀ kv₁ ∈ diskPlugins disk, ∀ kv₂ ∈ diskPlugins disk,
      kv₁ ≠ kv₂ → kv₁.2.dirName ≠ kv₂.2.dirName := by
    intro kv1 h1 kv2 h2 hne hcon
    apply hne
    have he : kv1.2 = kv2.2 :=
      hinj (hdm_sound kv1 h1).1 (hdm_sound kv2 h2).1 hcon
    have hk : kv1.1 = kv2.1 := by
      rw [← (hdm_sound kv1 h1).2, ← (hdm_sound kv2 h2).2, he]
    obtain ⟨a, b⟩ := kv1
    obtain ⟨c, d⟩ := kv2
    rw [show a = c from hk, show b = d from he]
  have hdis : ∀ kv ∈ diskPlugins disk, enabledOf kv.2 = false →
      hasKey kv.1 (unloadPass (diskPlugins disk) u
        (st.plugins.map Prod.fst) w st).st.plugins = false := by
    intro kv hm hf
    have halk : alookup kv.1 (diskPlugins disk) = some kv.2 :=
      alookup_of_mem_nodup _ kv.1 kv.2 hdm_nodup (by simpa using hm)
    apply unloadPass_disabled_removed (diskPlugins disk) u _ w st kv.1 kv.2
      halk hf
    cases hhk : hasKey kv.1 st.plugins with
    | false => exact Or.inl rfl
    | true =>
      refine Or.inr ?_
      cases ha : alookup kv.1 st.plugins with
      | none =>
        rw [hasKey, ha] at hhk
        exact absurd hhk (by simp)
      | some r =>
        exact List.mem_map_of_mem Prod.fst (alookup_mem _ kv.1 r ha)
  obtain ⟨f, hdisk, hpres, hfix, hstab, hmono, habs, hsubs⟩ :=
    loadPass_establishes u names (diskPlugins disk)
      (unloadPass (diskPlugins disk) u (st.plugins.map Prod.fst) w st).w
      (unloadPass (diskPlugins disk) u (st.plugins.map Prod.fst) w st).st
      disk hdm_sound hdm_nodup hdirs hnod hNC hdis
  have hRdisk : (reload_plugins w st disk u names).disk =
      (loadPass u names (diskPlugins disk)
        (unloadPass (diskPlugins disk) u (st.plugins.map Prod.fst) w st).w
        (unloadPass (diskPlugins disk) u (st.plugins.map Prod.fst) w st).st
        disk).disk := rfl
  have hRplug : (reload_plugins w st disk u names).st.plugins =
      (loadPass u names (diskPlugins disk)
        (unloadPass (diskPlugins disk) u (st.plugins.map Prod.fst) w st).w
        (unloadPass (diskPlugins disk) u (st.plugins.map Prod.fst) w st).st
        disk).st.plugins := by
    simp only [reload_plugins]
    split <;> rfl
  have hRsubs : (reload_plugins w st disk u names).st.eventSubs =
      (loadPass u names (diskPlugins disk)
        (unloadPass (diskPlugins disk) u (st.plugins.map Prod.fst) w st).w
        (unloadPass (diskPlugins disk) u (st.plugins.map Prod.fst) w st).st
        disk).st.eventSubs := by
    simp only [reload_plugins]
    split <;> rfl
  refine ⟨?_, ?_, ?_⟩
  · rw [hRdisk, hdisk, List.map_map]
    have hcg : disk.map ((fun d => d.dirName) ∘ f) =
        disk.map (fun d => d.dirName) :=
      List.map_congr_left (fun d hd => (hpres d hd).2.1)
    rw [hcg]
    exact hnod
  · rw [hRdisk, hdisk]
    intro e' he'
    obtain ⟨d, hd, rfl⟩ := List.mem_map.mp he'
    exact (hpres d hd).2.2.2 (hNC d hd)
  · intro kv hkv
    rw [hRdisk, hdisk,
      diskPlugins_map disk f (fun e he => (hpres e he).1)] at hkv
    obtain ⟨kv0, hkv0, rfl⟩ := List.mem_map.mp hkv
    exact StableEntry_congr hRplug hRsubs (hstab kv0 hkv0)

/-- C7 counterexample — the claim asserts that a second `reload_plugins`
call with no disk changes in between always yields empty loaded/unloaded
lists.  On `diskShadow` (two directories whose manifests declare the same
name `nn`, directory `b`'s plugin really being `bb`), the first call loads
only the shadowing directory `b` and rewrites its manifest to `bb`; the
second call then sees directory `a` un-shadowed under key `nn` and loads
it: `loaded = ["nn"] ≠ []`. -/
theorem c7_counterexample :
    (reload_plugins w0 st0 diskShadow true []).loaded = ["bb"] ∧
    (reload_plugins (reload_plugins w0 st0 diskShadow true []).w
        (reload_plugins w0 st0 diskShadow true []).st
        (reload_plugins w0 st0 diskShadow true []).disk true []).loaded =
      ["nn"] := by
  decide

/-- C7 (amended) — calling `reload_plugins` twice with no disk changes in
between yields empty loaded and unloaded lists on the second call, and the
second call leaves state and disk untouched, provided the scanned
directories are distinct and each directory's on-disk identity (manifest
`name`, or the directory name when no manifest is present) matches its
plugin's declared name.  Without that proviso the freshly rewritten
manifest can change an entry's disk-map key between the calls
(`c7_counterexample`). -/
theorem c7_amended_reload_idempotent (w : World) (st : PMState)
    (disk : Disk) (u : Bool) (names : List String)
    (hnod : (disk.map (fun d => d.dirName)).Nodup)
    (hNC : NameConsistent disk) :
    (reload_plugins (reload_plugins w st disk u names).w
      (reload_plugins w st disk u names).st
      (reload_plugins w st disk u names).disk u names).loaded = [] ∧
    (reload_plugins (reload_plugins w st disk u names).w
      (reload_plugins w st disk u names).st
      (reload_plugins w st disk u names).disk u names).unloaded = [] ∧
    (reload_plugins (reload_plugins w st disk u names).w
      (reload_plugins w st disk u names).st
      (reload_plugins w st disk u names).disk u names).st =
      (reload_plugins w st disk u names).st ∧
    (reload_plugins (reload_plugins w st disk u names).w
      (reload_plugins w st disk u names).st
      (reload_plugins w st disk u names).disk u names).disk =
      (reload_plugins w st disk u names).disk := by
  obtain ⟨hn, _, hs⟩ := reload_establishes_stable w st disk u names hnod hNC
  obtain ⟨h1, h2, h3, h4⟩ := reload_noop_of_stable
    (reload_plugins w st disk u names).w
    (reload_plugins w st disk u names).st
    (reload_plugins w st disk u names).disk u names hn hs
  exact ⟨h3, h4, h1, h2⟩

/-- Witness for the amended C7 at a concrete consistent disk. -/
theorem c7_amended_reload_idempotent_witness :
    ((diskFresh.map (fun d => d.dirName)).Nodup ∧
      NameConsistent diskFresh) ∧
    ((reload_plugins (reload_plugins w0 st0 diskFresh true []).w
      (reload_plugins w0 st0 diskFresh true []).st
      (reload_plugins w0 st0 diskFresh true []).disk true []).loaded = [] ∧
    (reload_plugins (reload_plugins w0 st0 diskFresh true []).w
      (reload_plugins w0 st0 diskFresh true []).st
      (reload_plugins w0 st0 diskFresh true []).disk true []).unloaded =
      [] ∧
    (reload_plugins (reload_plugins w0 st0 diskFresh true []).w
      (reload_plugins w0 st0 diskFresh true []).st
      (reload_plugins w0 st0 diskFresh true []).disk true []).st =
      (reload_plugins w0 st0 diskFresh true []).st ∧
    (reload_plugins (reload_plugins w0 st0 diskFresh true []).w
      (reload_plugins w0 st0 diskFresh true []).st
      (reload_plugins w0 st0 diskFresh true []).disk true []).disk =
      (reload_plugins w0 st0 diskFresh true []).disk) :=
  ⟨⟨by decide, by unfold NameConsistent; decide⟩,
    c7_amended_reload_idempotent w0 st0 diskFresh true [] (by decide)
      (by unfold NameConsistent; decide)⟩

end OpenSquad
